import Mathlib

/-!
# Arithmetic expression calculation service: the evaluator of `main.go`

A shallow embedding of `Calc`, `tokenize`, `infixToPostfix`, `evaluatePostfix`,
the token classifiers and the status mapping of `calculateHandler`, followed by
the properties proved about them.

Conventions of the embedding
* A Go `string` is a Lean `String`, that is, a sequence of Unicode characters;
  `for _, char := range expr` walks its characters.
* A Go `error` is its message, so a fallible function returns `Except String _`
  and the `(0, err)` / `(nil, err)` results are the `.error` case.
* `float64` and `strconv.ParseFloat` belong to the Go runtime, not to the
  repository.  They are a parameter (`FloatOps`): every theorem holds for every
  interpretation of the arithmetic, IEEE-754 included.
* The slices `operators` and `stack` are used as stacks whose top is the last
  element; here they are lists whose top is the head.
-/

namespace Calculator

/-- The part of the Go runtime the evaluator relies on: the carrier of
`float64`, `strconv.ParseFloat(token, 64)` (the value and whether `err == nil`),
the four arithmetic operations and the test `b == 0`.  The only fact assumed
about `ParseFloat` is that it rejects the six one-character symbols. -/
structure FloatOps where
  F : Type
  parseFloat : String → F × Bool
  add : F → F → F
  sub : F → F → F
  mul : F → F → F
  div : F → F → F
  isZero : F → Bool
  parse_symbol : ∀ t ∈ ["+", "-", "*", "/", "(", ")"], (parseFloat t).2 = false

/-- Message of `errors.New("Недостающие скобки")`. -/
def errParens : String := "Недостающие скобки"

/-- Message of `errors.New("Некорректный ввод")` and `fmt.Errorf("Некорректный ввод")`. -/
def errInvalid : String := "Некорректный ввод"

/-- Message of `errors.New("Деление на ноль")`. -/
def errDivZero : String := "Деление на ноль"

/-- Message of `fmt.Errorf("Неизвестный оператор: %s", token)`. -/
def errUnknownOp (token : String) : String := "Неизвестный оператор: " ++ token

/-- Message of `fmt.Errorf("Некорректный ввод: %s", token)`. -/
def errInvalidToken (token : String) : String := "Некорректный ввод: " ++ token

/-! ## tokenize -/

/-- The `case '+', '-', '*', '/', '(', ')'` label of `tokenize`. -/
def isSymbolChar (char : Char) : Bool :=
  char == '+' || char == '-' || char == '*' || char == '/' || char == '(' || char == ')'

/-- Appends `currentToken.String()` to `tokens` when `currentToken.Len() > 0`. -/
def flush (tokens : List String) (currentToken : List Char) : List String :=
  if currentToken.length > 0 then tokens ++ [String.mk currentToken] else tokens

/-- One iteration of the `for ... range expr` loop of `tokenize`; the state is
`(tokens, currentToken)`. -/
def tokenizeStep (st : List String × List Char) (char : Char) : List String × List Char :=
  if char = ' ' then st
  else if isSymbolChar char then (flush st.1 st.2 ++ [String.mk [char]], [])
  else (st.1, st.2 ++ [char])

/-- The loop of `tokenize` from a given state. -/
def tokenizeLoop (chars : List Char) (st : List String × List Char) : List String × List Char :=
  chars.foldl tokenizeStep st

/-- The function `tokenize`: the loop from empty `tokens` and an empty builder, then the final flush. -/
def tokenize (expr : String) : List String :=
  let st := tokenizeLoop expr.data ([], [])
  flush st.1 st.2

/-- The function `tokenize` resumed from a loop state: the rest of the loop and the final flush. -/
def tokenizeFrom (chars : List Char) (st : List String × List Char) : List String :=
  flush (tokenizeLoop chars st).1 (tokenizeLoop chars st).2

/-! ## Token classifiers -/

/-- The function `isNumber`: `strconv.ParseFloat(token, 64)` returns no error. -/
def isNumber (fl : FloatOps) (token : String) : Bool := (fl.parseFloat token).2

/-- The function `isOperator`. -/
def isOperator (token : String) : Bool :=
  token == "+" || token == "-" || token == "*" || token == "/"

/-- The function `precedence`. -/
def precedence (op : String) : Nat :=
  if op = "+" ∨ op = "-" then 1
  else if op = "*" ∨ op = "/" then 2
  else 0

/-! ## infixToPostfix -/

/-- The loop `for len(operators) > 0 && operators[len(operators)-1] != "("` of the
`")"` branch; returns `(output, operators)`. -/
def popToParen : List String → List String → List String × List String
  | output, [] => (output, [])
  | output, top :: rest =>
    if top ≠ "(" then popToParen (output ++ [top]) rest else (output, top :: rest)

/-- The loop `for len(operators) > 0 && precedence(top) >= precedence(token)` of the
operator branch; returns `(output, operators)`. -/
def popHigher (token : String) : List String → List String → List String × List String
  | output, [] => (output, [])
  | output, top :: rest =>
    if precedence top ≥ precedence token then popHigher token (output ++ [top]) rest
    else (output, top :: rest)

/-- One iteration of the token loop of `infixToPostfix`; the state is
`(output, operators)`. -/
def convertStep (fl : FloatOps) (st : List String × List String) (token : String) :
    Except String (List String × List String) :=
  if isNumber fl token then .ok (st.1 ++ [token], st.2)
  else if token = "(" then .ok (st.1, token :: st.2)
  else if token = ")" then
    match popToParen st.1 st.2 with
    | (_, []) => .error errParens
    | (output, _ :: operators) => .ok (output, operators)
  else if isOperator token then
    match popHigher token st.1 st.2 with
    | (output, operators) => .ok (output, token :: operators)
  else .error errInvalid

/-- The token loop of `infixToPostfix` from a given state. -/
def convertLoop (fl : FloatOps) :
    List String → List String × List String → Except String (List String × List String)
  | [], st => .ok st
  | token :: rest, st =>
    match convertStep fl st token with
    | .error e => .error e
    | .ok st' => convertLoop fl rest st'

/-- The final loop of `infixToPostfix` that unloads the remaining operators. -/
def drain : List String → List String → Except String (List String)
  | output, [] => .ok output
  | output, top :: rest =>
    if top = "(" then .error errParens else drain (output ++ [top]) rest

/-- The function `infixToPostfix`. -/
def infixToPostfix (fl : FloatOps) (tokens : List String) : Except String (List String) :=
  match convertLoop fl tokens ([], []) with
  | .error e => .error e
  | .ok st => drain st.1 st.2

/-! ## evaluatePostfix -/

/-- The `switch token` of `evaluatePostfix`, with `b` the top of the stack and `a`
the value below it; returns the value to push. -/
def applyOperator (fl : FloatOps) (token : String) (a b : fl.F) : Except String fl.F :=
  if token = "+" then .ok (fl.add a b)
  else if token = "-" then .ok (fl.sub a b)
  else if token = "*" then .ok (fl.mul a b)
  else if token = "/" then
    if fl.isZero b then .error errDivZero else .ok (fl.div a b)
  else .error (errUnknownOp token)

/-- One iteration of the token loop of `evaluatePostfix`. -/
def evalStep (fl : FloatOps) (stack : List fl.F) (token : String) : Except String (List fl.F) :=
  if isNumber fl token then .ok ((fl.parseFloat token).1 :: stack)
  else if isOperator token then
    match stack with
    | b :: a :: rest =>
      match applyOperator fl token a b with
      | .error e => .error e
      | .ok v => .ok (v :: rest)
    | _ => .error errInvalid
  else .error (errInvalidToken token)

/-- The token loop of `evaluatePostfix` from a given stack. -/
def evalLoop (fl : FloatOps) : List String → List fl.F → Except String (List fl.F)
  | [], stack => .ok stack
  | token :: rest, stack =>
    match evalStep fl stack token with
    | .error e => .error e
    | .ok stack' => evalLoop fl rest stack'

/-- The function `evaluatePostfix`. -/
def evaluatePostfix (fl : FloatOps) (rpn : List String) : Except String fl.F :=
  match evalLoop fl rpn [] with
  | .error e => .error e
  | .ok [v] => .ok v
  | .ok _ => .error errInvalid

/-! ## Calc and the status mapping of calculateHandler -/

/-- The function `Calc`. -/
def Calc (fl : FloatOps) (expression : String) : Except String fl.F :=
  match infixToPostfix fl (tokenize expression) with
  | .error e => .error e
  | .ok rpn => evaluatePostfix fl rpn

/-- The function `strings.Contains`. -/
def stringsContains (s substr : String) : Bool := decide (substr.data <:+: s.data)

/-- The status `calculateHandler` writes for an error returned by `Calc`. -/
def errorStatus (msg : String) : Nat :=
  if stringsContains msg errInvalid || stringsContains msg errParens ||
      stringsContains msg errDivZero then 422
  else 500

/-- The status `calculateHandler` writes after a request body decoded to `expression`. -/
def calculateStatus (fl : FloatOps) (expression : String) : Nat :=
  match Calc fl expression with
  | .error e => errorStatus e
  | .ok _ => 200

/-! ## A concrete arithmetic for evaluating the definitions -/

/-- Value of a run of decimal digits. -/
def digitsValue (ds : List Char) : Nat :=
  ds.foldl (fun n c => 10 * n + (c.toNat - 48)) 0

/-- Optional sign of a literal: `(negative, rest)`. -/
def splitSign : List Char → Bool × List Char
  | '-' :: r => (true, r)
  | '+' :: r => (false, r)
  | cs => (false, cs)

/-- Exponent part of a decimal literal: nothing, or `e`/`E`, an optional sign and
at least one digit. -/
def parseExponent : List Char → Option Int
  | [] => some 0
  | c :: r =>
    if c = 'e' ∨ c = 'E' then
      let sr := splitSign r
      if sr.2 ≠ [] ∧ sr.2.all Char.isDigit then
        some (if sr.1 then -(digitsValue sr.2 : Int) else (digitsValue sr.2 : Int))
      else none
    else none

/-- Decimal floating-point literals in the syntax `strconv.ParseFloat` accepts
(sign, digits, optional fraction, optional exponent), read exactly.  Hexadecimal
literals, infinities, NaN and digit separators are left out. -/
def parseDecimal (s : String) : Option ℚ :=
  let sr := splitSign s.data
  let ip := sr.2.takeWhile Char.isDigit
  let r1 := sr.2.dropWhile Char.isDigit
  let fr : List Char × List Char :=
    match r1 with
    | '.' :: r => (r.takeWhile Char.isDigit, r.dropWhile Char.isDigit)
    | _ => ([], r1)
  if ip = [] ∧ fr.1 = [] then none
  else
    match parseExponent fr.2 with
    | none => none
    | some e =>
      let m : ℚ := (digitsValue (ip ++ fr.1) : ℚ) * (10 : ℚ) ^ (e - (fr.1.length : Int))
      some (if sr.1 then -m else m)

/-- Exact rational arithmetic on decimal literals: the instance of `FloatOps` on
which the definitions are evaluated at concrete inputs.  It agrees with `float64`
wherever every literal and intermediate result is exactly representable. -/
def decimal : FloatOps where
  F := ℚ
  parseFloat := fun s =>
    match parseDecimal s with
    | some v => (v, true)
    | none => (0, false)
  add := fun a b => a + b
  sub := fun a b => a - b
  mul := fun a b => a * b
  div := fun a b => a / b
  isZero := fun b => decide (b = 0)
  parse_symbol := by
    intro t ht
    simp only [List.mem_cons, List.mem_singleton, List.not_mem_nil, or_false] at ht
    rcases ht with h | h | h | h | h | h <;> subst h <;> rfl

/-! ## The grammar of infix expressions and its intended meaning -/

/-- A literal as `tokenize` delimits one: non-empty, without a space and without
any of the six symbol characters. -/
def isLiteral (s : String) : Bool :=
  decide (s.data ≠ []) && s.data.all (fun c => c != ' ' && !isSymbolChar c)

/-- A numeric literal: a literal that `isNumber` accepts. -/
def isNumericLiteral (fl : FloatOps) (s : String) : Bool := isLiteral s && isNumber fl s

/-- The arithmetic meaning of the four operators: `a op b`. -/
def arith (fl : FloatOps) (op : String) (a b : fl.F) : fl.F :=
  if op = "+" then fl.add a b
  else if op = "-" then fl.sub a b
  else if op = "*" then fl.mul a b
  else fl.div a b

/-- Parse trees of infix expressions. -/
inductive Tree where
  | num (token : String)
  | bin (op : String) (left right : Tree)
  | paren (inner : Tree)

namespace Tree

/-- The token sequence a tree is the parse of. -/
def tokens : Tree → List String
  | num s => [s]
  | bin op l r => tokens l ++ op :: tokens r
  | paren e => "(" :: tokens e ++ [")"]

/-- The expression string a tree is the parse of. -/
def render : Tree → String
  | num s => s
  | bin op l r => render l ++ op ++ render r
  | paren e => "(" ++ render e ++ ")"

/-- Post-order traversal: left subtree, right subtree, operator. -/
def postorder : Tree → List String
  | num s => [s]
  | bin op l r => postorder l ++ postorder r ++ [op]
  | paren e => postorder e

/-- Membership in the grammar `expr := term (('+'|'-') term)*`,
`term := factor (('*'|'/') factor)*`, `factor := numeric literal | '(' expr ')'`,
with left-associative parse trees.  Level 1 is `expr`, level 2 is `term`, level 3
is `factor`: an operator node of precedence `p` belongs to the levels up to `p`,
its left child to level `p` and its right child to level `p + 1`. -/
def wellFormed (fl : FloatOps) : Nat → Tree → Bool
  | _, num s => isNumericLiteral fl s
  | lvl, bin op l r =>
    isOperator op && decide (lvl ≤ precedence op) &&
      wellFormed fl (precedence op) l && wellFormed fl (precedence op + 1) r
  | _, paren e => wellFormed fl 1 e

/-- The value of a parse tree: every operator applied as (left) op (right). -/
def value (fl : FloatOps) : Tree → fl.F
  | num s => (fl.parseFloat s).1
  | bin op l r => arith fl op (value fl l) (value fl r)
  | paren e => value fl e

/-- No division of the tree has a divisor whose value is zero. -/
def divisorsNonzero (fl : FloatOps) : Tree → Bool
  | num _ => true
  | bin op l r =>
    divisorsNonzero fl l && divisorsNonzero fl r &&
      (op != "/" || !fl.isZero (value fl r))
  | paren e => divisorsNonzero fl e

/-- The outcome arithmetic assigns to a tree: its value, or the division-by-zero
error when some divisor is zero. -/
def outcome (fl : FloatOps) (t : Tree) : Except String fl.F :=
  if divisorsNonzero fl t then .ok (value fl t) else .error errDivZero

/-- The first term of an expression: the left spine down to the first node that
is not an addition or subtraction. -/
def firstTerm : Tree → Tree
  | bin op l r => if precedence op = 1 then firstTerm l else bin op l r
  | t => t

/-- The parse tree of `e ++ "/(" ++ d ++ ")"`: the division is attached to the
last term of `e`. -/
def divideBy (d : Tree) : Tree → Tree
  | bin op l r => if precedence op = 1 then bin op l (divideBy d r) else bin "/" (bin op l r) (paren d)
  | t => bin "/" t (paren d)

end Tree

/-- Invariant of the `tokenize` loop: finished tokens are non-empty and hold no
space, and the builder holds no space. -/
def SpaceFree (st : List String × List Char) : Prop :=
  (∀ t ∈ st.1, t ≠ "" ∧ ' ' ∉ t.data) ∧ ' ' ∉ st.2

/-! ## Parenthesis-free chains `n0 op1 n1 ... opk nk` -/

/-- The tokens `op1, n1, ..., opk, nk` of the tail of a chain. -/
def opsTokens : List (String × String) → List String
  | [] => []
  | (op, n) :: rest => op :: n :: opsTokens rest

/-- The tokens `n0, op1, n1, ..., opk, nk` of a chain. -/
def chainTokens (n0 : String) (rest : List (String × String)) : List String :=
  n0 :: opsTokens rest

/-- The expression string `n0 op1 n1 ... opk nk`. -/
def chainRender (n0 : String) : List (String × String) → String
  | [] => n0
  | (op, n) :: rest => n0 ++ op ++ chainRender n rest

/-- The sequence `n1, op1, n2, op2, ..., nk, opk`. -/
def opsRpn : List (String × String) → List String
  | [] => []
  | (op, n) :: rest => n :: op :: opsRpn rest

/-- The left-to-right fold `((v0 op1 n1) op2 n2) ... opk nk`, stopping with the
division-by-zero error at a zero divisor. -/
def foldChain (fl : FloatOps) (acc : fl.F) : List (String × String) → Except String fl.F
  | [] => .ok acc
  | (op, n) :: rest =>
    if op = "/" ∧ fl.isZero (fl.parseFloat n).1 = true then .error errDivZero
    else foldChain fl (arith fl op acc (fl.parseFloat n).1) rest

/-- First pass of the two-pass reference evaluator: collapses every maximal run
of `*` and `/`, left to right, into a single value.  Returns the value of the
first run and, for each following run, the `+` or `-` before it and its value. -/
def collapse (fl : FloatOps) (cur : fl.F) :
    List (String × String) → Except String (fl.F × List (String × fl.F))
  | [] => .ok (cur, [])
  | (op, n) :: rest =>
    if op = "*" then collapse fl (fl.mul cur (fl.parseFloat n).1) rest
    else if op = "/" then
      if fl.isZero (fl.parseFloat n).1 then .error errDivZero
      else collapse fl (fl.div cur (fl.parseFloat n).1) rest
    else
      match collapse fl (fl.parseFloat n).1 rest with
      | .error e => .error e
      | .ok (v, terms) => .ok (cur, (op, v) :: terms)

/-- Second pass of the reference evaluator: folds the remaining `+` and `-`
strictly left to right. -/
def foldTerms (fl : FloatOps) (acc : fl.F) : List (String × fl.F) → fl.F
  | [] => acc
  | (op, v) :: rest => foldTerms fl (if op = "+" then fl.add acc v else fl.sub acc v) rest

/-- The two-pass reference evaluator of a chain whose first literal has value `v0`. -/
def reference (fl : FloatOps) (v0 : fl.F) (rest : List (String × String)) :
    Except String fl.F :=
  match collapse fl v0 rest with
  | .error e => .error e
  | .ok (v, terms) => .ok (foldTerms fl v terms)

/-- The conversion resumed from a loop state: the rest of the token loop and the
final unloading of the operators. -/
def convertFrom (fl : FloatOps) (tokens : List String) (st : List String × List String) :
    Except String (List String) :=
  match convertLoop fl tokens st with
  | .error e => .error e
  | .ok st' => drain st'.1 st'.2

namespace Tree

/-- The expression accumulated so far joined with the current term. -/
def combine (acc : Option (Tree × String)) (t : Tree) : Tree :=
  match acc with
  | none => t
  | some (e, o) => bin o e t

/-- The left-associative parse tree of a chain, built left to right from the
expression accumulated so far (with the `+` or `-` that follows it) and the
current term. -/
def ofChain (acc : Option (Tree × String)) (t : Tree) : List (String × String) → Tree
  | [] => combine acc t
  | (op, n) :: rest =>
    if precedence op = 2 then ofChain acc (bin op t (num n)) rest
    else ofChain (some (combine acc t, op)) (num n) rest

end Tree

/-! ## Parenthesis balance and token validity -/

/-- Every token the converter recognises: numeric, an operator or a parenthesis. -/
def isToken (fl : FloatOps) (t : String) : Bool :=
  isNumber fl t || isOperator t || t == "(" || t == ")"

/-- With `depth` parentheses already open, some prefix of the tokens closes more
parentheses than are open. -/
def Overclosed (depth : Nat) (ts : List String) : Prop :=
  ∃ p, p <+: ts ∧ depth + p.count "(" < p.count ")"

/-- The parentheses of a token sequence are unbalanced: some prefix contains more
`)` than `(` tokens, or the total numbers of `(` and `)` differ. -/
def Unbalanced (ts : List String) : Prop :=
  (∃ p, p <+: ts ∧ p.count "(" < p.count ")") ∨ ts.count "(" ≠ ts.count ")"

/-! ## Strings without their spaces, and tokens put back together -/

/-- The string with every `' '` character removed. -/
def removeSpaces (s : String) : String :=
  String.mk (s.data.filter (fun c => c != ' '))

/-- The tokens concatenated in order. -/
def concatTokens : List String → String
  | [] => ""
  | t :: ts => t ++ concatTokens ts

/-- Invariant of the `tokenize` loop: every finished token is a symbol or a
literal, no two literals are adjacent, the last finished token (if any) is a
symbol, and the builder holds only literal characters. -/
def TokenShape (st : List String × List Char) : Prop :=
  (∀ t ∈ st.1, t ∈ ["+", "-", "*", "/", "(", ")"] ∨ isLiteral t = true) ∧
    List.Chain' (fun a b => ¬ (isLiteral a = true ∧ isLiteral b = true)) st.1 ∧
    (∀ x ∈ st.1.getLast?, x ∈ ["+", "-", "*", "/", "(", ")"]) ∧
    (∀ c ∈ st.2, c ≠ ' ' ∧ isSymbolChar c = false)

/-! ## Token-level grammar and contents of the postfix output -/

namespace Tree

/-- Membership of a tree in the grammar over tokens: as `wellFormed`, with
`factor := numeric token | '(' expr ')'`, a numeric token being any token that
`isNumber` accepts. -/
def tokenFormed (fl : FloatOps) : Nat → Tree → Bool
  | _, num s => isNumber fl s
  | lvl, bin op l r =>
    isOperator op && decide (lvl ≤ precedence op) &&
      tokenFormed fl (precedence op) l && tokenFormed fl (precedence op + 1) r
  | _, paren e => tokenFormed fl 1 e

end Tree

/-- The tokens that may reach the postfix output: numeric tokens and operators. -/
def isRpnToken (fl : FloatOps) (t : String) : Bool := isNumber fl t || isOperator t

/-- Invariant of the token loop of `infixToPostfix`: the output holds numeric and
operator tokens only, the operator stack holds operators and `(` only. -/
def RpnState (fl : FloatOps) (st : List String × List String) : Prop :=
  (∀ x ∈ st.1, isRpnToken fl x = true) ∧ (∀ x ∈ st.2, isOperator x = true ∨ x = "(")

/-- Operands and operators alternate: a token sequence is read expecting an
operand (`true`) or an operator (`false`); a numeric token ends the wait for an
operand, `(` may precede an operand, an operator ends the wait for an operator and
`)` may precede an operator.  The sequence must end while an operator is awaited. -/
def alternates (fl : FloatOps) : Bool → List String → Bool
  | true, [] => false
  | false, [] => true
  | true, t :: ts =>
    if isNumber fl t then alternates fl false ts
    else if t = "(" then alternates fl true ts
    else false
  | false, t :: ts =>
    if isOperator t then alternates fl true ts
    else if t = ")" then alternates fl false ts
    else false

/-! # Properties -/

/-! ## Facts about the classifiers -/

theorem isOperator_cases {op : String} (h : isOperator op = true) :
    op = "+" ∨ op = "-" ∨ op = "*" ∨ op = "/" := by
  simpa [isOperator, or_assoc] using h

theorem isNumber_symbol (fl : FloatOps) {t : String}
    (h : t ∈ ["+", "-", "*", "/", "(", ")"]) : isNumber fl t = false :=
  fl.parse_symbol t h

theorem isNumber_operator (fl : FloatOps) {op : String} (h : isOperator op = true) :
    isNumber fl op = false := by
  apply isNumber_symbol
  rcases isOperator_cases h with h | h | h | h <;> subst h <;> simp

theorem precedence_operator {op : String} (h : isOperator op = true) :
    precedence op = 1 ∨ precedence op = 2 := by
  rcases isOperator_cases h with h | h | h | h <;> subst h <;> decide

theorem operator_ne_open {op : String} (h : isOperator op = true) : op ≠ "(" := by
  rcases isOperator_cases h with h | h | h | h <;> subst h <;> decide

theorem operator_ne_close {op : String} (h : isOperator op = true) : op ≠ ")" := by
  rcases isOperator_cases h with h | h | h | h <;> subst h <;> decide

/-! ## The tokenizer -/

theorem flush_nil (tokens : List String) : flush tokens [] = tokens := by
  simp [flush]

theorem mk_ne_empty {cs : List Char} (h : cs ≠ []) : String.mk cs ≠ "" := by
  intro h'
  apply h
  have := congrArg String.data h'
  simpa using this

theorem flush_of_ne_nil (tokens : List String) {cs : List Char} (h : cs ≠ []) :
    flush tokens cs = tokens ++ [String.mk cs] := by
  simp [flush, List.length_pos.mpr h]

theorem flush_spaceFree {st : List String × List Char} (h : SpaceFree st) :
    ∀ t ∈ flush st.1 st.2, t ≠ "" ∧ ' ' ∉ t.data := by
  obtain ⟨h1, h2⟩ := h
  intro t ht
  unfold flush at ht
  split at ht
  · rename_i hlen
    rcases List.mem_append.mp ht with h | h
    · exact h1 t h
    · have ht' : t = String.mk st.2 := by simpa using h
      subst ht'
      exact ⟨mk_ne_empty (List.length_pos.mp hlen), h2⟩
  · exact h1 t ht

theorem tokenizeStep_spaceFree {st : List String × List Char} (h : SpaceFree st) (c : Char) :
    SpaceFree (tokenizeStep st c) := by
  unfold tokenizeStep
  split
  · exact h
  · rename_i hc
    split
    · refine And.intro ?_ (by simp)
      intro t ht
      rcases List.mem_append.mp ht with h' | h'
      · exact flush_spaceFree h t h'
      · have ht' : t = String.mk [c] := by simpa using h'
        subst ht'
        refine ⟨mk_ne_empty (by simp), ?_⟩
        simpa using Ne.symm hc
    · refine And.intro h.1 ?_
      intro hmem
      rcases List.mem_append.mp hmem with h' | h'
      · exact h.2 h'
      · have h2 : ' ' = c := by simpa using h'
        exact hc h2.symm

theorem tokenizeLoop_spaceFree (chars : List Char) {st : List String × List Char}
    (h : SpaceFree st) : SpaceFree (tokenizeLoop chars st) := by
  induction chars generalizing st with
  | nil => exact h
  | cons c cs ih => exact ih (tokenizeStep_spaceFree h c)

theorem tokenize_eq_from (s : String) : tokenize s = tokenizeFrom s.data ([], []) := rfl

theorem tokenizeFrom_nil (st : List String × List Char) :
    tokenizeFrom [] st = flush st.1 st.2 := rfl

theorem tokenizeFrom_cons (c : Char) (rest : List Char) (st : List String × List Char) :
    tokenizeFrom (c :: rest) st = tokenizeFrom rest (tokenizeStep st c) := rfl

theorem tokenizeFrom_symbol {c : Char} (hc : isSymbolChar c = true) (rest : List Char)
    (st : List String × List Char) :
    tokenizeFrom (c :: rest) st = tokenizeFrom rest (flush st.1 st.2 ++ [String.mk [c]], []) := by
  have hsp : c ≠ ' ' := by
    intro h
    subst h
    exact absurd hc (by decide)
  rw [tokenizeFrom_cons]
  simp [tokenizeStep, hsp, hc]

theorem tokenizeFrom_chars (cs : List Char)
    (hcs : ∀ c ∈ cs, c ≠ ' ' ∧ isSymbolChar c = false) (rest : List Char)
    (tokens : List String) (cur : List Char) :
    tokenizeFrom (cs ++ rest) (tokens, cur) = tokenizeFrom rest (tokens, cur ++ cs) := by
  induction cs generalizing cur with
  | nil => simp
  | cons c cs ih =>
    have hc := hcs c (List.mem_cons_self _ _)
    rw [List.cons_append, tokenizeFrom_cons]
    have hstep : tokenizeStep (tokens, cur) c = (tokens, cur ++ [c]) := by
      simp [tokenizeStep, hc.1, hc.2]
    rw [hstep, ih (fun c' h' => hcs c' (List.mem_cons_of_mem _ h'))]
    simp

/-- A literal followed by the end of the input or by one of the six symbols is
emitted as one token. -/
theorem tokenizeFrom_literal {s : String} (hs : isLiteral s = true) (rest : List Char)
    (hrest : ∀ c ∈ rest.head?, isSymbolChar c = true) (tokens : List String) :
    tokenizeFrom (s.data ++ rest) (tokens, []) = tokenizeFrom rest (tokens ++ [s], []) := by
  simp only [isLiteral, Bool.and_eq_true, decide_eq_true_eq, List.all_eq_true,
    bne_iff_ne, ne_eq, Bool.not_eq_true', Bool.not_eq_eq_eq_not, Bool.not_true] at hs
  obtain ⟨hne, hall⟩ := hs
  rw [tokenizeFrom_chars s.data hall rest tokens [], List.nil_append]
  cases rest with
  | nil => simp [tokenizeFrom_nil, flush_of_ne_nil _ hne, flush_nil]
  | cons c r =>
    have hc : isSymbolChar c = true := hrest c (by simp)
    rw [tokenizeFrom_symbol hc, tokenizeFrom_symbol hc]
    simp [flush_of_ne_nil _ hne, flush_nil]

theorem tokenizeFrom_symbolToken {t : String} (ht : t ∈ ["+", "-", "*", "/", "(", ")"])
    (rest : List Char) (tokens : List String) :
    tokenizeFrom (t.data ++ rest) (tokens, []) = tokenizeFrom rest (tokens ++ [t], []) := by
  simp only [List.mem_cons, List.mem_singleton, List.not_mem_nil, or_false] at ht
  rcases ht with h | h | h | h | h | h <;> subst h <;>
    exact tokenizeFrom_symbol (by decide) rest (tokens, [])

theorem symbolToken_head (t : String) (ht : t ∈ ["+", "-", "*", "/", "(", ")"])
    (rest : List Char) : ∀ c ∈ (t.data ++ rest).head?, isSymbolChar c = true := by
  simp only [List.mem_cons, List.mem_singleton, List.not_mem_nil, or_false] at ht
  rcases ht with h | h | h | h | h | h <;> subst h <;> simp <;> decide

theorem operator_mem_symbols {op : String} (h : isOperator op = true) :
    op ∈ ["+", "-", "*", "/", "(", ")"] := by
  rcases isOperator_cases h with h | h | h | h <;> subst h <;> simp

theorem tokenizeFrom_render (fl : FloatOps) (t : Tree) :
    ∀ (lvl : Nat), t.wellFormed fl lvl = true → ∀ (rest : List Char),
      (∀ c ∈ rest.head?, isSymbolChar c = true) → ∀ (tokens : List String),
      tokenizeFrom (t.render.data ++ rest) (tokens, []) =
        tokenizeFrom rest (tokens ++ t.tokens, []) := by
  induction t with
  | num s =>
    intro lvl h rest hrest tokens
    simp only [Tree.wellFormed, isNumericLiteral, Bool.and_eq_true] at h
    simpa [Tree.render, Tree.tokens] using tokenizeFrom_literal h.1 rest hrest tokens
  | bin op l r ihl ihr =>
    intro lvl h rest hrest tokens
    simp only [Tree.wellFormed, Bool.and_eq_true, decide_eq_true_eq] at h
    obtain ⟨⟨⟨hop, _⟩, hl⟩, hr⟩ := h
    have hsym := operator_mem_symbols hop
    simp only [Tree.render, Tree.tokens, String.data_append, List.append_assoc]
    rw [ihl _ hl _ (symbolToken_head op hsym _), tokenizeFrom_symbolToken hsym,
      ihr _ hr rest hrest]
    simp
  | paren e ih =>
    intro lvl h rest hrest tokens
    simp only [Tree.wellFormed] at h
    simp only [Tree.render, Tree.tokens, String.data_append, List.append_assoc]
    rw [tokenizeFrom_symbolToken (by simp), ih _ h _ (symbolToken_head ")" (by simp) _),
      tokenizeFrom_symbolToken (by simp)]
    simp

/-- The tokens of a well-formed expression string are the tokens of its parse tree. -/
theorem tokenize_render (fl : FloatOps) (t : Tree) (lvl : Nat)
    (h : t.wellFormed fl lvl = true) : tokenize t.render = t.tokens := by
  have := tokenizeFrom_render fl t lvl h [] (by simp) []
  simpa [tokenize_eq_from, tokenizeFrom_nil, flush_nil] using this

/-! ## The converter on well-formed expressions -/

theorem convertLoop_append (fl : FloatOps) (a b : List String) (st : List String × List String) :
    convertLoop fl (a ++ b) st =
      match convertLoop fl a st with
      | .error e => .error e
      | .ok st' => convertLoop fl b st' := by
  induction a generalizing st with
  | nil => rfl
  | cons t a ih =>
    simp only [List.cons_append, convertLoop]
    cases convertStep fl st t with
    | error e => rfl
    | ok st' => exact ih st'

theorem popHigher_stop (token : String) (output operators : List String)
    (h : ∀ o ∈ operators.head?, precedence o < precedence token) :
    popHigher token output operators = (output, operators) := by
  cases operators with
  | nil => rfl
  | cons top rest =>
    have := h top (by simp)
    simp [popHigher, Nat.not_le.mpr this]

theorem popHigher_append (token : String) (pend : List String) (output operators : List String)
    (h : ∀ o ∈ pend, precedence token ≤ precedence o) :
    popHigher token output (pend ++ operators) = popHigher token (output ++ pend) operators := by
  induction pend generalizing output with
  | nil => simp
  | cons top pend ih =>
    have h1 := h top (List.mem_cons_self _ _)
    rw [List.cons_append, popHigher, if_pos h1,
      ih _ (fun o ho => h o (List.mem_cons_of_mem _ ho))]
    simp

theorem popToParen_append (pend : List String) (output operators : List String)
    (h : ∀ o ∈ pend, o ≠ "(") :
    popToParen output (pend ++ "(" :: operators) = (output ++ pend, "(" :: operators) := by
  induction pend generalizing output with
  | nil => simp [popToParen]
  | cons top pend ih =>
    have h1 := h top (List.mem_cons_self _ _)
    rw [List.cons_append, popToParen, if_pos h1,
      ih _ (fun o ho => h o (List.mem_cons_of_mem _ ho))]
    simp

theorem drain_operators (pend : List String) (output : List String)
    (h : ∀ o ∈ pend, o ≠ "(") : drain output pend = .ok (output ++ pend) := by
  induction pend generalizing output with
  | nil => simp [drain]
  | cons top pend ih =>
    have h1 := h top (List.mem_cons_self _ _)
    simp only [drain, h1, if_false]
    rw [ih _ (fun o ho => h o (List.mem_cons_of_mem _ ho))]
    simp

theorem convertStep_number (fl : FloatOps) {token : String} (h : isNumber fl token = true)
    (st : List String × List String) :
    convertStep fl st token = .ok (st.1 ++ [token], st.2) := by
  simp [convertStep, h]

theorem convertStep_open (fl : FloatOps) (st : List String × List String) :
    convertStep fl st "(" = .ok (st.1, "(" :: st.2) := by
  simp [convertStep, isNumber_symbol fl (t := "(") (by simp)]

theorem convertStep_close (fl : FloatOps) (st : List String × List String) :
    convertStep fl st ")" =
      match popToParen st.1 st.2 with
      | (_, []) => .error errParens
      | (output, _ :: operators) => .ok (output, operators) := by
  have h1 : isNumber fl ")" = false := isNumber_symbol fl (by simp)
  have h2 : (")" : String) ≠ "(" := by decide
  simp [convertStep, h1, h2]

theorem convertStep_operator (fl : FloatOps) {token : String} (h : isOperator token = true)
    (st : List String × List String) :
    convertStep fl st token =
      .ok ((popHigher token st.1 st.2).1, token :: (popHigher token st.1 st.2).2) := by
  simp [convertStep, isNumber_operator fl h, operator_ne_open h, operator_ne_close h, h]

/-- Shunting-yard on the tokens of a tree of level `lvl`, started above a stack
whose top binds weaker than `lvl`: the stack below is untouched, and the output
followed by the operators left pending is the post-order of the tree. -/
theorem convertLoop_tokens (fl : FloatOps) (t : Tree) :
    ∀ (lvl : Nat), t.wellFormed fl lvl = true → ∀ (output operators : List String),
      (∀ o ∈ operators.head?, precedence o < lvl) →
      ∃ output' pend, convertLoop fl t.tokens (output, operators) = .ok (output', pend ++ operators) ∧
        output' ++ pend = output ++ t.postorder ∧
        ∀ o ∈ pend, isOperator o = true ∧ lvl ≤ precedence o := by
  induction t with
  | num s =>
    intro lvl h output operators _
    simp only [Tree.wellFormed, isNumericLiteral, Bool.and_eq_true] at h
    refine ⟨output ++ [s], [], ?_, by simp [Tree.postorder], by simp⟩
    simp [Tree.tokens, convertLoop, convertStep_number fl h.2]
  | bin op l r ihl ihr =>
    intro lvl h output operators hops
    simp only [Tree.wellFormed, Bool.and_eq_true, decide_eq_true_eq] at h
    obtain ⟨⟨⟨hop, hlvl⟩, hl⟩, hr⟩ := h
    obtain ⟨out1, pend1, hrun1, hout1, hpend1⟩ :=
      ihl _ hl output operators (fun o ho => lt_of_lt_of_le (hops o ho) hlvl)
    have hpop : popHigher op out1 (pend1 ++ operators) = (out1 ++ pend1, operators) := by
      rw [popHigher_append op pend1 out1 operators (fun o ho => (hpend1 o ho).2)]
      exact popHigher_stop op _ operators (fun o ho => lt_of_lt_of_le (hops o ho) hlvl)
    obtain ⟨out2, pend2, hrun2, hout2, hpend2⟩ :=
      ihr _ hr (out1 ++ pend1) (op :: operators) (by simp)
    refine ⟨out2, pend2 ++ [op], ?_, ?_, ?_⟩
    · simp only [Tree.tokens, convertLoop_append, hrun1, convertLoop,
        convertStep_operator fl hop, hpop, hrun2]
      simp
    · rw [← List.append_assoc, hout2, hout1]
      simp [Tree.postorder]
    · intro o ho
      rcases List.mem_append.mp ho with h' | h'
      · exact ⟨(hpend2 o h').1, le_trans hlvl (le_trans (Nat.le_succ _) (hpend2 o h').2)⟩
      · have : o = op := by simpa using h'
        subst this
        exact ⟨hop, hlvl⟩
  | paren e ih =>
    intro lvl h output operators _
    simp only [Tree.wellFormed] at h
    obtain ⟨out1, pend1, hrun1, hout1, hpend1⟩ :=
      ih 1 h output ("(" :: operators) (by simp; decide)
    refine ⟨out1 ++ pend1, [], ?_, by simp [Tree.postorder, hout1], by simp⟩
    have hpop := popToParen_append pend1 out1 operators
      (fun o ho => operator_ne_open (hpend1 o ho).1)
    rw [Tree.tokens, List.cons_append, convertLoop, convertStep_open]
    simp only [convertLoop_append, hrun1]
    simp only [convertLoop, convertStep_close, hpop, List.nil_append]

/-- The converter turns the tokens of a well-formed expression into the
post-order of its parse tree. -/
theorem infixToPostfix_tokens (fl : FloatOps) (t : Tree) (lvl : Nat)
    (h : t.wellFormed fl lvl = true) : infixToPostfix fl t.tokens = .ok t.postorder := by
  obtain ⟨out, pend, hrun, hout, hpend⟩ := convertLoop_tokens fl t lvl h [] [] (by simp)
  simp only [infixToPostfix, hrun, List.append_nil]
  rw [drain_operators pend out (fun o ho => operator_ne_open (hpend o ho).1), hout]
  simp

/-! ## The evaluator on post-orders -/

theorem evalLoop_append (fl : FloatOps) (a b : List String) (stack : List fl.F) :
    evalLoop fl (a ++ b) stack =
      match evalLoop fl a stack with
      | .error e => .error e
      | .ok stack' => evalLoop fl b stack' := by
  induction a generalizing stack with
  | nil => rfl
  | cons t a ih =>
    simp only [List.cons_append, evalLoop]
    cases evalStep fl stack t with
    | error e => rfl
    | ok stack' => exact ih stack'

theorem evalStep_number (fl : FloatOps) {token : String} (h : isNumber fl token = true)
    (stack : List fl.F) : evalStep fl stack token = .ok ((fl.parseFloat token).1 :: stack) := by
  simp [evalStep, h]

theorem applyOperator_operator (fl : FloatOps) {op : String} (h : isOperator op = true)
    (a b : fl.F) :
    applyOperator fl op a b =
      if (op != "/" || !fl.isZero b) = true then .ok (arith fl op a b) else .error errDivZero := by
  rcases isOperator_cases h with h | h | h | h <;> subst h
  · simp [applyOperator, arith]
  · simp [applyOperator, arith]
  · simp [applyOperator, arith]
  · cases hz : fl.isZero b <;> simp [applyOperator, arith, hz]

theorem evalStep_operator (fl : FloatOps) {op : String} (h : isOperator op = true)
    (a b : fl.F) (rest : List fl.F) :
    evalStep fl (b :: a :: rest) op =
      if (op != "/" || !fl.isZero b) = true then .ok (arith fl op a b :: rest)
      else .error errDivZero := by
  have hn : ¬ (isNumber fl op = true) := by simp [isNumber_operator fl h]
  unfold evalStep
  rw [if_neg hn, if_pos h]
  simp only [applyOperator_operator fl h]
  by_cases hc : (op != "/" || !fl.isZero b) = true
  · simp only [if_pos hc]
  · simp only [if_neg hc]

theorem evalStep_operator_short (fl : FloatOps) {op : String} (h : isOperator op = true)
    (stack : List fl.F) (hs : stack.length < 2) : evalStep fl stack op = .error errInvalid := by
  simp only [evalStep, isNumber_operator fl h, h]
  match stack, hs with
  | [], _ => simp
  | [_], _ => simp

/-- Evaluating the post-order of a well-formed tree pushes its value, or stops
with the division-by-zero error when a divisor of the tree is zero. -/
theorem evalLoop_postorder (fl : FloatOps) (t : Tree) :
    ∀ (lvl : Nat), t.wellFormed fl lvl = true → ∀ (rest : List String) (stack : List fl.F),
      evalLoop fl (t.postorder ++ rest) stack =
        if t.divisorsNonzero fl = true then evalLoop fl rest (t.value fl :: stack)
        else .error errDivZero := by
  induction t with
  | num s =>
    intro lvl h rest stack
    simp only [Tree.wellFormed, isNumericLiteral, Bool.and_eq_true] at h
    simp [Tree.postorder, evalLoop, evalStep_number fl h.2, Tree.divisorsNonzero, Tree.value]
  | bin op l r ihl ihr =>
    intro lvl h rest stack
    simp only [Tree.wellFormed, Bool.and_eq_true, decide_eq_true_eq] at h
    obtain ⟨⟨⟨hop, _⟩, hl⟩, hr⟩ := h
    simp only [Tree.postorder, List.append_assoc, ihl _ hl, ihr _ hr, Tree.divisorsNonzero,
      Tree.value]
    cases hdl : l.divisorsNonzero fl
    · simp
    · cases hdr : r.divisorsNonzero fl
      · simp
      · simp only [List.singleton_append, evalLoop, evalStep_operator fl hop, Bool.true_and]
        by_cases hc : (op != "/" || !fl.isZero (r.value fl)) = true
        · simp [hc]
        · simp [hc]
  | paren e ih =>
    intro lvl h rest stack
    simp only [Tree.wellFormed] at h
    simp [Tree.postorder, ih _ h, Tree.divisorsNonzero, Tree.value]

theorem evaluatePostfix_postorder (fl : FloatOps) (t : Tree) (lvl : Nat)
    (h : t.wellFormed fl lvl = true) : evaluatePostfix fl t.postorder = t.outcome fl := by
  have := evalLoop_postorder fl t lvl h [] []
  rw [List.append_nil] at this
  unfold evaluatePostfix Tree.outcome
  rw [this]
  cases t.divisorsNonzero fl <;> simp [evalLoop]

/-- The evaluator on a well-formed expression string: the value of the parse
tree, or the division-by-zero error when a divisor is zero. -/
theorem Calc_render (fl : FloatOps) (t : Tree) (lvl : Nat)
    (h : t.wellFormed fl lvl = true) : Calc fl t.render = t.outcome fl := by
  simp only [Calc, tokenize_render fl t lvl h, infixToPostfix_tokens fl t lvl h,
    evaluatePostfix_postorder fl t lvl h]

theorem outcome_ok (fl : FloatOps) {t : Tree} {v : fl.F} (h : t.outcome fl = .ok v) :
    t.divisorsNonzero fl = true ∧ t.value fl = v := by
  unfold Tree.outcome at h
  split at h
  · rename_i hd
    exact ⟨hd, by simpa using h⟩
  · simp at h

/-! ## C1: well-formed expressions evaluate to the value of their parse tree -/

/-- C1 as amended.  For every well-formed infix expression (a parse tree of the
grammar at the `expr` level) whose numeric literals are literals of the tokenizer,
that is, non-empty strings `ParseFloat` accepts that contain no space and none of
the characters `+ - * / ( )`, and in which no division has a divisor whose value is
zero, `Calc` of the expression string succeeds and returns the value of the parse
tree: `*` and `/` bind tighter than `+` and `-`, equal-precedence operators group
to the left, parentheses override precedence, and every operator is applied as
(left operand) op (right operand). -/
theorem Calc_wellFormed (fl : FloatOps) (t : Tree) (h : t.wellFormed fl 1 = true)
    (hz : t.divisorsNonzero fl = true) : Calc fl t.render = .ok (t.value fl) := by
  rw [Calc_render fl t 1 h, Tree.outcome, if_pos hz]

/-- C1 as amended, at `(2+3)*4`: the parentheses override the precedence and the result is 20. -/
theorem Calc_wellFormed_witness : Calc decimal "(2+3)*4" = .ok (20 : ℚ) := by
  with_unfolding_all
    exact Calc_wellFormed decimal
      (.bin "*" (.paren (.bin "+" (.num "2") (.num "3"))) (.num "4")) rfl rfl

/-! ## C4: dividing by a parenthesised expression whose value is zero -/

theorem render_divideBy (d e : Tree) :
    (Tree.divideBy d e).render = e.render ++ "/(" ++ d.render ++ ")" := by
  induction e with
  | num s => apply String.ext; simp [Tree.divideBy, Tree.render]
  | paren e _ => apply String.ext; simp [Tree.divideBy, Tree.render]
  | bin op l r _ ihr =>
    unfold Tree.divideBy
    split
    · apply String.ext
      simp [Tree.render, ihr]
    · apply String.ext
      simp [Tree.render]

theorem wellFormed_divideBy (fl : FloatOps) (d : Tree) (hd : d.wellFormed fl 1 = true)
    (e : Tree) : ∀ (lvl : Nat), lvl ≤ 2 → e.wellFormed fl lvl = true →
      (Tree.divideBy d e).wellFormed fl lvl = true := by
  have hdiv : isOperator "/" = true := by decide
  have hprec : precedence "/" = 2 := by decide
  induction e with
  | num s =>
    intro lvl hlvl h
    simp only [Tree.wellFormed] at h
    simp [Tree.divideBy, Tree.wellFormed, hdiv, hprec, hlvl, h, hd]
  | paren e _ =>
    intro lvl hlvl h
    simp only [Tree.wellFormed] at h
    simp [Tree.divideBy, Tree.wellFormed, hdiv, hprec, hlvl, h, hd]
  | bin op l r _ ihr =>
    intro lvl hlvl h
    simp only [Tree.wellFormed, Bool.and_eq_true, decide_eq_true_eq] at h
    obtain ⟨⟨⟨hop, hle⟩, hl⟩, hr⟩ := h
    unfold Tree.divideBy
    split
    · rename_i hp
      rw [hp] at hr hl hle
      have := ihr 2 (le_refl 2) hr
      simp [Tree.wellFormed, hop, hp, hle, hl, this]
    · rename_i hp
      have hp2 : precedence op = 2 := by
        rcases precedence_operator hop with h' | h'
        · exact absurd h' hp
        · exact h'
      rw [hp2] at hl hr
      simp [Tree.wellFormed, hdiv, hprec, hlvl, hop, hp2, hl, hr, hd]

theorem divisorsNonzero_divideBy (fl : FloatOps) (d : Tree)
    (hz : fl.isZero (d.value fl) = true) (e : Tree) :
    (Tree.divideBy d e).divisorsNonzero fl = false := by
  induction e with
  | num s => simp [Tree.divideBy, Tree.divisorsNonzero, Tree.value, hz]
  | paren e _ => simp [Tree.divideBy, Tree.divisorsNonzero, Tree.value, hz]
  | bin op l r _ ihr =>
    unfold Tree.divideBy
    split
    · simp [Tree.divisorsNonzero, ihr]
    · simp [Tree.divisorsNonzero, Tree.value, hz]

/-- C4.  For all well-formed infix expressions `e1` and `e2` that `Calc` evaluates
successfully, if the value of `e2` is zero then `Calc` of `e1 ++ "/(" ++ e2 ++ ")"`
returns no value and fails with the division-by-zero error. -/
theorem Calc_divide_by_zero (fl : FloatOps) (e1 e2 : Tree)
    (h1 : e1.wellFormed fl 1 = true) (h2 : e2.wellFormed fl 1 = true) (v1 v2 : fl.F)
    (_hc1 : Calc fl e1.render = .ok v1) (hc2 : Calc fl e2.render = .ok v2)
    (hz : fl.isZero v2 = true) :
    Calc fl (e1.render ++ "/(" ++ e2.render ++ ")") = .error errDivZero := by
  rw [Calc_render fl e2 1 h2] at hc2
  obtain ⟨_, hv⟩ := outcome_ok fl hc2
  rw [← hv] at hz
  rw [← render_divideBy e2 e1,
    Calc_render fl _ 1 (wellFormed_divideBy fl e2 h2 e1 1 (by decide) h1), Tree.outcome,
    divisorsNonzero_divideBy fl e2 hz e1]
  simp

/-- C4 at `10/(5-5)`. -/
theorem Calc_divide_by_zero_witness : Calc decimal "10/(5-5)" = .error errDivZero := by
  with_unfolding_all
    exact Calc_divide_by_zero decimal (.num "10") (.bin "-" (.num "5") (.num "5")) rfl rfl
      (10 : ℚ) (0 : ℚ) rfl rfl rfl

/-! ## C7 and C8: an operator without its operands -/

theorem firstTerm_of_term (fl : FloatOps) (t : Tree) (h : t.wellFormed fl 2 = true) :
    t.firstTerm = t := by
  cases t with
  | num s => rfl
  | paren e => rfl
  | bin op l r =>
    simp only [Tree.wellFormed, Bool.and_eq_true, decide_eq_true_eq] at h
    have hp : precedence op ≠ 1 := by omega
    simp [Tree.firstTerm, hp]

theorem wellFormed_firstTerm (fl : FloatOps) (t : Tree) (h : t.wellFormed fl 1 = true) :
    t.firstTerm.wellFormed fl 2 = true := by
  induction t with
  | num s => simpa [Tree.firstTerm, Tree.wellFormed] using h
  | paren e _ => simpa [Tree.firstTerm, Tree.wellFormed] using h
  | bin op l r ihl _ =>
    simp only [Tree.wellFormed, Bool.and_eq_true, decide_eq_true_eq] at h
    obtain ⟨⟨⟨hop, hle⟩, hl⟩, hr⟩ := h
    unfold Tree.firstTerm
    split
    · rename_i hp
      rw [hp] at hl
      exact ihl hl
    · rename_i hp
      have hp2 : precedence op = 2 := by
        rcases precedence_operator hop with h' | h'
        · exact absurd h' hp
        · exact h'
      rw [hp2] at hl hr
      simp [Tree.wellFormed, hop, hp2, hl, hr]

theorem divisorsNonzero_firstTerm (fl : FloatOps) (t : Tree)
    (h : t.divisorsNonzero fl = true) : t.firstTerm.divisorsNonzero fl = true := by
  induction t with
  | num s => exact h
  | paren e _ => exact h
  | bin op l r ihl _ =>
    unfold Tree.firstTerm
    split
    · simp only [Tree.divisorsNonzero, Bool.and_eq_true] at h
      exact ihl h.1.1
    · exact h

/-- Shunting-yard on a well-formed expression started above a lone `"-"`: the
output begins with the post-order of the first term, followed by that `"-"`. -/
theorem convertLoop_under_minus (fl : FloatOps) (t : Tree) (h : t.wellFormed fl 1 = true) :
    ∃ output operators tail, convertLoop fl t.tokens ([], ["-"]) = .ok (output, operators) ∧
      (∀ o ∈ operators, isOperator o = true) ∧
      output ++ operators = t.firstTerm.postorder ++ "-" :: tail := by
  have hterm : ∀ (u : Tree), u.wellFormed fl 2 = true →
      ∃ output operators tail, convertLoop fl u.tokens ([], ["-"]) = .ok (output, operators) ∧
        (∀ o ∈ operators, isOperator o = true) ∧
        output ++ operators = u.firstTerm.postorder ++ "-" :: tail := by
    intro u hu
    obtain ⟨out, pend, hrun, hout, hpend⟩ :=
      convertLoop_tokens fl u 2 hu [] ["-"] (by simp; decide)
    refine ⟨out, pend ++ ["-"], [], hrun, ?_, ?_⟩
    · intro o ho
      rcases List.mem_append.mp ho with h' | h'
      · exact (hpend o h').1
      · have : o = "-" := by simpa using h'
        subst this
        decide
    · rw [firstTerm_of_term fl u hu, ← List.append_assoc, hout]
      simp
  induction t with
  | num s => exact hterm _ (by simpa [Tree.wellFormed] using h)
  | paren e _ => exact hterm _ (by simpa [Tree.wellFormed] using h)
  | bin op l r ihl _ =>
    have h0 := h
    simp only [Tree.wellFormed, Bool.and_eq_true, decide_eq_true_eq] at h
    obtain ⟨⟨⟨hop, hle⟩, hl⟩, hr⟩ := h
    rcases precedence_operator hop with hp | hp
    · rw [hp] at hl hr
      obtain ⟨out1, ops1, tail1, hrun1, hops1, hout1⟩ := ihl hl
      have hpop : popHigher op out1 ops1 = (out1 ++ ops1, []) := by
        have := popHigher_append op ops1 out1 [] (fun o ho => by
          rcases precedence_operator (hops1 o ho) with h' | h' <;> omega)
        rw [List.append_nil] at this
        rw [this]
        rfl
      obtain ⟨out2, pend2, hrun2, hout2, hpend2⟩ :=
        convertLoop_tokens fl r 2 hr (out1 ++ ops1) [op] (by simp [hp])
      refine ⟨out2, pend2 ++ [op], tail1 ++ r.postorder ++ [op], ?_, ?_, ?_⟩
      · simp only [Tree.tokens, convertLoop_append, hrun1, convertLoop,
          convertStep_operator fl hop, hpop, hrun2]
      · intro o ho
        rcases List.mem_append.mp ho with h' | h'
        · exact (hpend2 o h').1
        · have : o = op := by simpa using h'
          subst this
          exact hop
      · rw [← List.append_assoc, hout2, hout1]
        simp [Tree.firstTerm, hp]
    · apply hterm
      rw [hp] at hl hr
      simp [Tree.wellFormed, hop, hp, hl, hr]

theorem tokenize_minus_render (fl : FloatOps) (t : Tree) (lvl : Nat)
    (h : t.wellFormed fl lvl = true) : tokenize ("-" ++ t.render) = "-" :: t.tokens := by
  have h1 := tokenizeFrom_symbolToken (t := "-") (by simp) (t.render.data ++ []) []
  have h2 := tokenizeFrom_render fl t lvl h [] (by simp) ["-"]
  rw [tokenize_eq_from, String.data_append, ← List.append_nil (("-" : String).data ++ _),
    List.append_assoc, h1, List.nil_append, h2]
  simp [tokenizeFrom_nil, flush_nil]

theorem Calc_minus_render (fl : FloatOps) (t : Tree) (v : fl.F)
    (h : t.wellFormed fl 1 = true) (hc : Calc fl t.render = .ok v) :
    Calc fl ("-" ++ t.render) = .error errInvalid := by
  rw [Calc_render fl t 1 h] at hc
  obtain ⟨hd, _⟩ := outcome_ok fl hc
  obtain ⟨out, ops, tail, hrun, hops, hout⟩ := convertLoop_under_minus fl t h
  have hminus : isNumber fl "-" = false := isNumber_symbol fl (by simp)
  have hstep : convertStep fl ([], []) "-" = .ok ([], ["-"]) := by
    rw [convertStep_operator fl (by decide)]
    rfl
  have hconv : infixToPostfix fl ("-" :: t.tokens) =
      .ok (t.firstTerm.postorder ++ "-" :: tail) := by
    simp only [infixToPostfix, convertLoop, hstep, hrun]
    rw [drain_operators ops out (fun o ho => operator_ne_open (hops o ho)), hout]
  have heval := evalLoop_postorder fl t.firstTerm 2 (wellFormed_firstTerm fl t h)
    ("-" :: tail) []
  rw [if_pos (divisorsNonzero_firstTerm fl t hd)] at heval
  simp only [Calc, tokenize_minus_render fl t 1 h, hconv, evaluatePostfix, heval, evalLoop,
    @evalStep_operator_short fl "-" (by decide) [_] (by simp)]

theorem tokenize_two (fl : FloatOps) (n op : String)
    (hn : isNumericLiteral fl n = true) (hop : isOperator op = true) :
    tokenize (n ++ op) = [n, op] := by
  simp only [isNumericLiteral, Bool.and_eq_true] at hn
  have hsym := operator_mem_symbols hop
  have h1 := tokenizeFrom_literal hn.1 (op.data ++ []) (symbolToken_head op hsym _) []
  have h2 := tokenizeFrom_symbolToken hsym [] [n]
  rw [List.append_nil] at h1
  rw [tokenize_eq_from, String.data_append, h1, List.nil_append,
    ← List.append_nil op.data, h2]
  simp [tokenizeFrom_nil, flush_nil]

theorem tokenize_four (fl : FloatOps) (a op b : String)
    (ha : isNumericLiteral fl a = true) (hop : isOperator op = true)
    (hb : isNumericLiteral fl b = true) :
    tokenize (a ++ op ++ "-" ++ b) = [a, op, "-", b] := by
  simp only [isNumericLiteral, Bool.and_eq_true] at ha hb
  have hsym := operator_mem_symbols hop
  have h1 := tokenizeFrom_literal ha.1 (op.data ++ (("-" : String).data ++ (b.data ++ [])))
    (symbolToken_head op hsym _) []
  have h2 := tokenizeFrom_symbolToken hsym (("-" : String).data ++ (b.data ++ [])) [a]
  have h3 := tokenizeFrom_symbolToken (t := "-") (by simp) (b.data ++ []) [a, op]
  have h4 := tokenizeFrom_literal hb.1 [] (by simp) [a, op, "-"]
  rw [tokenize_eq_from]
  simp only [String.data_append, List.append_assoc, List.cons_append, List.nil_append]
  simp only [List.append_nil, List.nil_append, List.cons_append] at h1 h2 h3 h4
  rw [h1, h2, h3, h4]
  simp [tokenizeFrom_nil, flush_nil]

theorem Calc_operator_minus (fl : FloatOps) (a op b : String)
    (ha : isNumericLiteral fl a = true) (hop : isOperator op = true)
    (hb : isNumericLiteral fl b = true) :
    Calc fl (a ++ op ++ "-" ++ b) = .error errInvalid := by
  have ha2 : isNumber fl a = true := by
    simp only [isNumericLiteral, Bool.and_eq_true] at ha
    exact ha.2
  have hb2 : isNumber fl b = true := by
    simp only [isNumericLiteral, Bool.and_eq_true] at hb
    exact hb.2
  have hge : precedence op ≥ precedence "-" := by
    rcases precedence_operator hop with h' | h' <;> rw [h'] <;> decide
  have hconv : infixToPostfix fl [a, op, "-", b] = .ok [a, op, b, "-"] := by
    simp [infixToPostfix, convertLoop, convertStep_number fl ha2, convertStep_number fl hb2,
      convertStep_operator fl hop, @convertStep_operator fl "-" (by decide),
      popHigher, hge, drain]
  simp only [Calc, tokenize_four fl a op b ha hop hb, hconv, evaluatePostfix, evalLoop,
    evalStep_number fl ha2, evalStep_operator_short fl hop [_] (by simp)]

/-- C7.  A `-` standing where an operand is expected is never read as a sign: for
every well-formed infix expression `t` that `Calc` evaluates successfully,
`Calc` of `"-" ++ t` fails with the invalid-input error, and for all numeric
literals `a`, `b` and every operator `op`, `Calc` of `a ++ op ++ "-" ++ b` fails
with the invalid-input error. -/
theorem Calc_minus_is_no_sign (fl : FloatOps) :
    (∀ (t : Tree) (v : fl.F), t.wellFormed fl 1 = true → Calc fl t.render = .ok v →
        Calc fl ("-" ++ t.render) = .error errInvalid) ∧
      (∀ (a op b : String), isNumericLiteral fl a = true → isOperator op = true →
        isNumericLiteral fl b = true →
        Calc fl (a ++ op ++ "-" ++ b) = .error errInvalid) :=
  ⟨fun t v h hc => Calc_minus_render fl t v h hc,
    fun a op b ha hop hb => Calc_operator_minus fl a op b ha hop hb⟩

/-- C7 at `-5+2` and `3*-2`. -/
theorem Calc_minus_is_no_sign_witness :
    Calc decimal "-5+2" = .error errInvalid ∧ Calc decimal "3*-2" = .error errInvalid := by
  with_unfolding_all
    exact ⟨(Calc_minus_is_no_sign decimal).1 (.bin "+" (.num "5") (.num "2")) (7 : ℚ) rfl rfl,
      (Calc_minus_is_no_sign decimal).2 "3" "*" "2" rfl rfl rfl⟩

/-- C8.  For every numeric literal `n` and every operator `op`, `Calc` of
`n ++ op` returns no value and fails with the invalid-input error: the operator
finds fewer than two values on the value stack. -/
theorem Calc_missing_operand (fl : FloatOps) (n op : String)
    (hn : isNumericLiteral fl n = true) (hop : isOperator op = true) :
    Calc fl (n ++ op) = .error errInvalid ∧
      ∃ v, evalLoop fl [n] [] = .ok [v] ∧ evalStep fl [v] op = .error errInvalid := by
  have hn2 : isNumber fl n = true := by
    simp only [isNumericLiteral, Bool.and_eq_true] at hn
    exact hn.2
  have hconv : infixToPostfix fl [n, op] = .ok [n, op] := by
    simp [infixToPostfix, convertLoop, convertStep_number fl hn2, convertStep_operator fl hop,
      popHigher, drain, operator_ne_open hop]
  refine ⟨?_, (fl.parseFloat n).1, ?_, evalStep_operator_short fl hop [_] (by simp)⟩
  · simp only [Calc, tokenize_two fl n op hn hop, hconv, evaluatePostfix, evalLoop,
      evalStep_number fl hn2, evalStep_operator_short fl hop [_] (by simp)]
  · simp [evalLoop, evalStep_number fl hn2]

/-- C8 at `2+`. -/
theorem Calc_missing_operand_witness : Calc decimal "2+" = .error errInvalid := by
  with_unfolding_all exact (Calc_missing_operand decimal "2" "+" rfl rfl).1

/-! ## C3: chains of equal precedence -/

theorem infixToPostfix_eq_from (fl : FloatOps) (tokens : List String) :
    infixToPostfix fl tokens = convertFrom fl tokens ([], []) := rfl

theorem convertFrom_cons (fl : FloatOps) (t : String) (ts : List String)
    (st st' : List String × List String) (h : convertStep fl st t = .ok st') :
    convertFrom fl (t :: ts) st = convertFrom fl ts st' := by
  simp [convertFrom, convertLoop, h]

theorem popHigher_all (token : String) (output operators : List String)
    (h : ∀ o ∈ operators, precedence token ≤ precedence o) :
    popHigher token output operators = (output ++ operators, []) := by
  have := popHigher_append token operators output [] h
  rw [List.append_nil] at this
  rw [this]
  rfl

theorem convertFrom_equalPrecedence (fl : FloatOps) (p : Nat) (rest : List (String × String)) :
    ∀ (output operators : List String),
      (∀ x ∈ rest, isOperator x.1 = true ∧ isNumber fl x.2 = true ∧ precedence x.1 = p) →
      (∀ o ∈ operators, isOperator o = true ∧ p ≤ precedence o) →
      convertFrom fl (opsTokens rest) (output, operators) =
        .ok (output ++ operators ++ opsRpn rest) := by
  induction rest with
  | nil =>
    intro output operators _ hops
    simp only [opsTokens, opsRpn, convertFrom, convertLoop, List.append_nil]
    exact drain_operators operators output (fun o ho => operator_ne_open (hops o ho).1)
  | cons x rest ih =>
    obtain ⟨op, n⟩ := x
    intro output operators hrest hops
    obtain ⟨hop, hn, hp⟩ := hrest (op, n) (List.mem_cons_self _ _)
    simp only at hop hn hp
    have hpop : popHigher op output operators = (output ++ operators, []) :=
      popHigher_all op output operators (fun o ho => by rw [hp]; exact (hops o ho).2)
    have hstep1 : convertStep fl (output, operators) op = .ok (output ++ operators, [op]) := by
      rw [convertStep_operator fl hop, hpop]
    have hstep2 : convertStep fl (output ++ operators, [op]) n =
        .ok (output ++ operators ++ [n], [op]) := convertStep_number fl hn _
    rw [opsTokens, convertFrom_cons fl op _ _ _ hstep1, convertFrom_cons fl n _ _ _ hstep2,
      ih _ _ (fun y hy => hrest y (List.mem_cons_of_mem _ hy))
        (fun o ho => by
          have : o = op := by simpa using ho
          subst this
          exact ⟨hop, le_of_eq hp.symm⟩)]
    simp [opsRpn]

theorem tokenizeFrom_chain (rest : List (String × String)) :
    ∀ (n0 : String) (tokens : List String), isLiteral n0 = true →
      (∀ x ∈ rest, isOperator x.1 = true ∧ isLiteral x.2 = true) →
      tokenizeFrom (chainRender n0 rest).data (tokens, []) = tokens ++ chainTokens n0 rest := by
  induction rest with
  | nil =>
    intro n0 tokens h0 _
    have := tokenizeFrom_literal h0 [] (by simp) tokens
    rw [List.append_nil] at this
    simp [chainRender, chainTokens, opsTokens, this, tokenizeFrom_nil, flush_nil]
  | cons x rest ih =>
    obtain ⟨op, n⟩ := x
    intro n0 tokens h0 hrest
    obtain ⟨hop, hn⟩ := hrest (op, n) (List.mem_cons_self _ _)
    simp only at hop hn
    have hsym := operator_mem_symbols hop
    simp only [chainRender, String.data_append, List.append_assoc]
    rw [tokenizeFrom_literal h0 _ (symbolToken_head op hsym _), tokenizeFrom_symbolToken hsym,
      ih n _ hn (fun y hy => hrest y (List.mem_cons_of_mem _ hy))]
    simp [chainTokens, opsTokens]

theorem tokenize_chain (n0 : String) (rest : List (String × String))
    (h0 : isLiteral n0 = true)
    (hrest : ∀ x ∈ rest, isOperator x.1 = true ∧ isLiteral x.2 = true) :
    tokenize (chainRender n0 rest) = chainTokens n0 rest := by
  rw [tokenize_eq_from, tokenizeFrom_chain rest n0 [] h0 hrest]
  simp

theorem evalLoop_opsRpn (fl : FloatOps) (rest : List (String × String)) :
    ∀ (acc : fl.F), (∀ x ∈ rest, isOperator x.1 = true ∧ isNumber fl x.2 = true) →
      evalLoop fl (opsRpn rest) [acc] =
        match foldChain fl acc rest with
        | .error e => .error e
        | .ok v => .ok [v] := by
  induction rest with
  | nil => intro acc _; rfl
  | cons x rest ih =>
    obtain ⟨op, n⟩ := x
    intro acc hrest
    obtain ⟨hop, hn⟩ := hrest (op, n) (List.mem_cons_self _ _)
    simp only at hop hn
    simp only [opsRpn, evalLoop, evalStep_number fl hn, evalStep_operator fl hop, foldChain]
    by_cases hz : op = "/" ∧ fl.isZero (fl.parseFloat n).1 = true
    · simp [hz]
    · have hc : (op != "/" || !fl.isZero (fl.parseFloat n).1) = true := by
        by_cases h1 : op = "/"
        · have : fl.isZero (fl.parseFloat n).1 = false := by simpa [h1] using hz
          simp [this]
        · simp [h1]
      rw [if_pos hc, if_neg hz]
      exact ih _ (fun y hy => hrest y (List.mem_cons_of_mem _ hy))

/-- C3.  Equal-precedence operators are left-associative: for numeric tokens
`n0..nk` and operators `op1..opk` of one precedence `p`, `infixToPostfix` of
`[n0, op1, n1, ..., opk, nk]` is `[n0, n1, op1, n2, op2, ..., nk, opk]`, whose
evaluation is the left fold `((n0 op1 n1) op2 n2) ... opk nk`; when the tokens are
literals, that is what `Calc` returns on the expression string. -/
theorem infixToPostfix_equalPrecedence (fl : FloatOps) (p : Nat) (n0 : String)
    (rest : List (String × String)) (h0 : isNumber fl n0 = true)
    (hrest : ∀ x ∈ rest, isOperator x.1 = true ∧ isNumber fl x.2 = true ∧ precedence x.1 = p) :
    infixToPostfix fl (chainTokens n0 rest) = .ok (n0 :: opsRpn rest) ∧
      evaluatePostfix fl (n0 :: opsRpn rest) = foldChain fl (fl.parseFloat n0).1 rest ∧
      (isLiteral n0 = true → (∀ x ∈ rest, isLiteral x.2 = true) →
        Calc fl (chainRender n0 rest) = foldChain fl (fl.parseFloat n0).1 rest) := by
  have hconv : infixToPostfix fl (chainTokens n0 rest) = .ok (n0 :: opsRpn rest) := by
    rw [infixToPostfix_eq_from, chainTokens,
      convertFrom_cons fl n0 _ _ _ (convertStep_number fl h0 _),
      convertFrom_equalPrecedence fl p rest _ _ hrest (by simp)]
    simp
  have heval : evaluatePostfix fl (n0 :: opsRpn rest) =
      foldChain fl (fl.parseFloat n0).1 rest := by
    simp only [evaluatePostfix, evalLoop, evalStep_number fl h0,
      evalLoop_opsRpn fl rest _ (fun x hx => ⟨(hrest x hx).1, (hrest x hx).2.1⟩)]
    cases foldChain fl (fl.parseFloat n0).1 rest <;> rfl
  refine ⟨hconv, heval, ?_⟩
  intro hl0 hlrest
  simp only [Calc, tokenize_chain n0 rest hl0 (fun x hx => ⟨(hrest x hx).1, hlrest x hx⟩),
    hconv, heval]

/-- C3 at `2+3-1`: the postfix form is `2 3 + 1 -` and the result is 4. -/
theorem infixToPostfix_equalPrecedence_witness :
    infixToPostfix decimal ["2", "+", "3", "-", "1"] = .ok ["2", "3", "+", "1", "-"] ∧
      Calc decimal "2+3-1" = .ok (4 : ℚ) := by
  have h := infixToPostfix_equalPrecedence decimal 1 "2" [("+", "3"), ("-", "1")] rfl
    (by decide)
  exact ⟨h.1, by with_unfolding_all exact h.2.2 rfl (by decide)⟩

/-! ## C2: parenthesis-free expressions against the two-pass reference evaluator -/

theorem wellFormed_mono (fl : FloatOps) (t : Tree) (lvl lvl' : Nat) (hle : lvl' ≤ lvl)
    (h : t.wellFormed fl lvl = true) : t.wellFormed fl lvl' = true := by
  cases t with
  | num s => simpa [Tree.wellFormed] using h
  | paren e => simpa [Tree.wellFormed] using h
  | bin op l r =>
    simp only [Tree.wellFormed, Bool.and_eq_true, decide_eq_true_eq] at h ⊢
    exact ⟨⟨⟨h.1.1.1, le_trans hle h.1.1.2⟩, h.1.2⟩, h.2⟩

theorem tokens_combine_bin (acc : Option (Tree × String)) (t : Tree) (op n : String) :
    (Tree.combine acc (.bin op t (.num n))).tokens = (Tree.combine acc t).tokens ++ [op, n] := by
  cases acc with
  | none => simp [Tree.combine, Tree.tokens]
  | some a => simp [Tree.combine, Tree.tokens]

theorem tokens_ofChain (rest : List (String × String)) :
    ∀ (acc : Option (Tree × String)) (t : Tree),
      (Tree.ofChain acc t rest).tokens = (Tree.combine acc t).tokens ++ opsTokens rest := by
  induction rest with
  | nil => intro acc t; simp [Tree.ofChain, opsTokens]
  | cons x rest ih =>
    obtain ⟨op, n⟩ := x
    intro acc t
    unfold Tree.ofChain
    split
    · rw [ih, tokens_combine_bin]
      simp [opsTokens]
    · rw [ih]
      simp [Tree.combine, Tree.tokens, opsTokens]

/-- What the chain builder keeps about the accumulated expression: it is a
well-formed expression followed by `+` or `-`. -/
theorem wellFormed_ofChain (fl : FloatOps) (rest : List (String × String)) :
    ∀ (acc : Option (Tree × String)) (t : Tree),
      (∀ a ∈ acc, a.1.wellFormed fl 1 = true ∧ isOperator a.2 = true ∧ precedence a.2 = 1) →
      t.wellFormed fl 2 = true →
      (∀ x ∈ rest, isOperator x.1 = true ∧ isNumericLiteral fl x.2 = true) →
      (Tree.ofChain acc t rest).wellFormed fl 1 = true := by
  have hcomb : ∀ (acc : Option (Tree × String)) (t : Tree),
      (∀ a ∈ acc, a.1.wellFormed fl 1 = true ∧ isOperator a.2 = true ∧ precedence a.2 = 1) →
      t.wellFormed fl 2 = true → (Tree.combine acc t).wellFormed fl 1 = true := by
    intro acc t hacc ht
    cases acc with
    | none => exact wellFormed_mono fl t 2 1 (by decide) ht
    | some a =>
      obtain ⟨h1, h2, h3⟩ := hacc a rfl
      simp [Tree.combine, Tree.wellFormed, h1, h2, h3, ht]
  induction rest with
  | nil => intro acc t hacc ht _; exact hcomb acc t hacc ht
  | cons x rest ih =>
    obtain ⟨op, n⟩ := x
    intro acc t hacc ht hrest
    obtain ⟨hop, hn⟩ := hrest (op, n) (List.mem_cons_self _ _)
    simp only at hop hn
    have hrest' := fun y hy => hrest y (List.mem_cons_of_mem _ hy)
    unfold Tree.ofChain
    split
    · rename_i hp
      apply ih acc _ hacc _ hrest'
      simp [Tree.wellFormed, hop, hp, ht, hn]
    · rename_i hp
      have hp1 : precedence op = 1 := by
        rcases precedence_operator hop with h' | h'
        · exact h'
        · exact absurd h' hp
      apply ih _ _ _ _ hrest'
      · intro a ha
        have : a = (Tree.combine acc t, op) := by simpa using ha.symm
        subst this
        exact ⟨hcomb acc t hacc ht, hop, hp1⟩
      · simpa [Tree.wellFormed] using hn

/-- The value the accumulated expression and the current term have together. -/
theorem value_combine (fl : FloatOps) (acc : Option (Tree × String)) (t : Tree) :
    (Tree.combine acc t).value fl =
      match acc with
      | none => t.value fl
      | some (e, o) => arith fl o (e.value fl) (t.value fl) := by
  cases acc with
  | none => rfl
  | some a => rfl

theorem divisorsNonzero_combine (fl : FloatOps) (acc : Option (Tree × String)) (t : Tree)
    (hacc : ∀ a ∈ acc, precedence a.2 = 1) :
    (Tree.combine acc t).divisorsNonzero fl =
      ((match acc with
        | none => true
        | some (e, _) => e.divisorsNonzero fl) && t.divisorsNonzero fl) := by
  cases acc with
  | none => simp [Tree.combine]
  | some a =>
    obtain ⟨e, o⟩ := a
    have ho : o ≠ "/" := by
      intro h
      have h1 : precedence o = 1 := hacc (e, o) rfl
      rw [h] at h1
      exact absurd h1 (by decide)
    simp [Tree.combine, Tree.divisorsNonzero, ho]

theorem divisorsNonzero_ofChain_false (fl : FloatOps) (rest : List (String × String)) :
    ∀ (acc : Option (Tree × String)) (t : Tree), (∀ a ∈ acc, precedence a.2 = 1) →
      (∀ x ∈ rest, isOperator x.1 = true) →
      (Tree.combine acc t).divisorsNonzero fl = false →
      (Tree.ofChain acc t rest).divisorsNonzero fl = false := by
  induction rest with
  | nil => intro acc t _ _ h; exact h
  | cons x rest ih =>
    obtain ⟨op, n⟩ := x
    intro acc t hacc hrest h
    have hop : isOperator op = true := hrest (op, n) (List.mem_cons_self _ _)
    have hrest' := fun y hy => hrest y (List.mem_cons_of_mem _ hy)
    unfold Tree.ofChain
    split
    · apply ih acc _ hacc hrest'
      rw [divisorsNonzero_combine fl acc _ hacc] at h ⊢
      cases acc with
      | none =>
        simp only [Bool.true_and] at h
        simp [Tree.divisorsNonzero, h]
      | some a =>
        simp only [Tree.divisorsNonzero, Bool.and_true]
        simp only [Bool.and_eq_false_iff] at h ⊢
        rcases h with h | h
        · exact Or.inl h
        · exact Or.inr (Or.inl h)
    · rename_i hp
      have hp1 : precedence op = 1 := by
        rcases precedence_operator hop with h' | h'
        · exact h'
        · exact absurd h' hp
      apply ih _ _ _ hrest'
      · rw [divisorsNonzero_combine fl _ _ (by
          intro a ha
          have : a = (Tree.combine acc t, op) := by simpa using ha.symm
          subst this
          exact hp1)]
        simp [h]
      · intro a ha
        have : a = (Tree.combine acc t, op) := by simpa using ha.symm
        subst this
        exact hp1

theorem outcome_ofChain (fl : FloatOps) (rest : List (String × String)) :
    ∀ (acc : Option (Tree × String)) (t : Tree), (∀ a ∈ acc, precedence a.2 = 1) →
      (∀ x ∈ rest, isOperator x.1 = true) →
      (Tree.combine acc t).divisorsNonzero fl = true →
      (Tree.ofChain acc t rest).outcome fl =
        match collapse fl (t.value fl) rest with
        | .error e => .error e
        | .ok (v, terms) =>
          .ok (foldTerms fl
            (match acc with
              | none => v
              | some (e, o) => arith fl o (e.value fl) v) terms) := by
  induction rest with
  | nil =>
    intro acc t _ _ h
    simp only [Tree.ofChain, Tree.outcome, h, if_true, collapse, foldTerms, value_combine]
  | cons x rest ih =>
    obtain ⟨op, n⟩ := x
    intro acc t hacc hrest h
    have hop : isOperator op = true := hrest (op, n) (List.mem_cons_self _ _)
    have hrest' := fun y hy => hrest y (List.mem_cons_of_mem _ hy)
    have hsplit := h
    rw [divisorsNonzero_combine fl acc t hacc, Bool.and_eq_true] at hsplit
    have hacc' : ∀ (o : String), precedence o = 1 →
        ∀ a ∈ (some (Tree.combine acc t, o) : Option (Tree × String)), precedence a.2 = 1 := by
      intro o ho a ha
      have : a = (Tree.combine acc t, o) := by simpa using ha.symm
      subst this
      exact ho
    have hsum : ∀ (o : String), precedence o = 1 →
        (Tree.combine (some (Tree.combine acc t, o)) (.num n)).divisorsNonzero fl = true := by
      intro o ho
      rw [divisorsNonzero_combine fl _ _ (hacc' o ho)]
      simp [h, Tree.divisorsNonzero]
    have hprod : ∀ (o : String), o ≠ "/" →
        (Tree.combine acc (.bin o t (.num n))).divisorsNonzero fl = true := by
      intro o ho
      rw [divisorsNonzero_combine fl _ _ hacc]
      simp [hsplit.1, hsplit.2, Tree.divisorsNonzero, ho]
    rcases isOperator_cases hop with hc | hc | hc | hc <;> subst hc
    · rw [Tree.ofChain, if_neg (by decide), ih _ _ (hacc' _ (by decide)) hrest'
        (hsum _ (by decide))]
      simp only [collapse, Tree.value, value_combine]
      cases collapse fl (fl.parseFloat n).1 rest with
      | error e => simp
      | ok r => simp [foldTerms, arith]
    · rw [Tree.ofChain, if_neg (by decide), ih _ _ (hacc' _ (by decide)) hrest'
        (hsum _ (by decide))]
      simp only [collapse, Tree.value, value_combine]
      cases collapse fl (fl.parseFloat n).1 rest with
      | error e => simp
      | ok r => simp [foldTerms, arith]
    · rw [Tree.ofChain, if_pos (by decide), ih _ _ hacc hrest' (hprod _ (by decide))]
      simp [collapse, Tree.value, arith]
    · rw [Tree.ofChain, if_pos (by decide)]
      cases hz : fl.isZero (fl.parseFloat n).1
      · have hd : (Tree.combine acc (.bin "/" t (.num n))).divisorsNonzero fl = true := by
          rw [divisorsNonzero_combine fl _ _ hacc]
          simp [hsplit.1, hsplit.2, Tree.divisorsNonzero, Tree.value, hz]
        rw [ih _ _ hacc hrest' hd]
        simp [collapse, Tree.value, arith, hz]
      · have hd : (Tree.combine acc (.bin "/" t (.num n))).divisorsNonzero fl = false := by
          rw [divisorsNonzero_combine fl _ _ hacc]
          simp [Tree.divisorsNonzero, Tree.value, hz]
        simp [Tree.outcome, divisorsNonzero_ofChain_false fl rest _ _ hacc hrest' hd, collapse,
          hz]

theorem Calc_of_tokens (fl : FloatOps) (s : String) (t : Tree) (lvl : Nat)
    (h : t.wellFormed fl lvl = true) (hs : tokenize s = t.tokens) :
    Calc fl s = t.outcome fl := by
  simp only [Calc, hs, infixToPostfix_tokens fl t lvl h, evaluatePostfix_postorder fl t lvl h]

/-- C2 as amended.  For every parenthesis-free expression `n0 op1 n1 ... opk nk`
(each `opi` one of `+ - * /`, each `ni` a numeric literal that is a literal of the
tokenizer: a non-empty string `ParseFloat` accepts, with no space and none of the
characters `+ - * / ( )`), `Calc` returns the same outcome, value or
division-by-zero error, as the two-pass reference evaluator that first collapses
every maximal run of `*` and `/` left to right into a single value and then folds
the remaining `+` and `-` strictly left to right. -/
theorem Calc_eq_reference (fl : FloatOps) (n0 : String) (rest : List (String × String))
    (h0 : isNumericLiteral fl n0 = true)
    (hrest : ∀ x ∈ rest, isOperator x.1 = true ∧ isNumericLiteral fl x.2 = true) :
    Calc fl (chainRender n0 rest) = reference fl (fl.parseFloat n0).1 rest := by
  have hlit : isLiteral n0 = true := by
    simp only [isNumericLiteral, Bool.and_eq_true] at h0
    exact h0.1
  have htok : tokenize (chainRender n0 rest) = (Tree.ofChain none (.num n0) rest).tokens := by
    rw [tokenize_chain n0 rest hlit (fun x hx => by
        have := (hrest x hx).2
        simp only [isNumericLiteral, Bool.and_eq_true] at this
        exact ⟨(hrest x hx).1, this.1⟩),
      tokens_ofChain]
    simp [chainTokens, Tree.combine, Tree.tokens]
  have hwf : (Tree.ofChain none (.num n0) rest).wellFormed fl 1 = true :=
    wellFormed_ofChain fl rest none (.num n0) (by simp) (by simpa [Tree.wellFormed] using h0)
      hrest
  rw [Calc_of_tokens fl _ _ 1 hwf htok,
    outcome_ofChain fl rest none (.num n0) (by simp) (fun x hx => (hrest x hx).1) rfl]
  rfl

/-- C2 as amended, at `2+3*4`: the product is collapsed first and the result is 14. -/
theorem Calc_eq_reference_witness :
    Calc decimal "2+3*4" = .ok (14 : ℚ) ∧
      reference decimal (2 : ℚ) [("+", "3"), ("*", "4")] = .ok (14 : ℚ) := by
  have h := Calc_eq_reference decimal "2" [("+", "3"), ("*", "4")] rfl (by decide)
  have hr : reference decimal (2 : ℚ) [("+", "3"), ("*", "4")] = .ok (14 : ℚ) := by
    with_unfolding_all rfl
  refine ⟨?_, hr⟩
  rw [← hr]
  with_unfolding_all exact h

/-! ## C5: mismatched parentheses -/

theorem overclosed_nil (d : Nat) : ¬ Overclosed d [] := by
  rintro ⟨p, hp, h⟩
  have : p = [] := List.prefix_nil.mp hp
  subst this
  simp at h

theorem overclosed_cons (d : Nat) (t : String) (ts : List String) :
    Overclosed d (t :: ts) ↔
      ∃ p, p <+: ts ∧ d + (t :: p).count "(" < (t :: p).count ")" := by
  constructor
  · rintro ⟨p, hp, h⟩
    rcases List.prefix_cons_iff.mp hp with h0 | ⟨q, hq, hqs⟩
    · subst h0
      simp at h
    · subst hq
      exact ⟨q, hqs, h⟩
  · rintro ⟨p, hp, h⟩
    exact ⟨t :: p, List.prefix_cons_inj t |>.mpr hp, h⟩

theorem overclosed_cons_other (d : Nat) {t : String} (h1 : t ≠ "(") (h2 : t ≠ ")")
    (ts : List String) : Overclosed d (t :: ts) ↔ Overclosed d ts := by
  rw [overclosed_cons]
  simp only [List.count_cons_of_ne (Ne.symm h1), List.count_cons_of_ne (Ne.symm h2)]
  rfl

theorem overclosed_cons_open (d : Nat) (ts : List String) :
    Overclosed d ("(" :: ts) ↔ Overclosed (d + 1) ts := by
  rw [overclosed_cons]
  have hne : (")" : String) ≠ "(" := by decide
  simp only [List.count_cons_self, List.count_cons_of_ne hne]
  constructor
  · rintro ⟨p, hp, h⟩
    exact ⟨p, hp, by omega⟩
  · rintro ⟨p, hp, h⟩
    exact ⟨p, hp, by omega⟩

theorem overclosed_cons_close (d : Nat) (ts : List String) :
    Overclosed d (")" :: ts) ↔ d = 0 ∨ Overclosed (d - 1) ts := by
  rw [overclosed_cons]
  have hne : ("(" : String) ≠ ")" := by decide
  simp only [List.count_cons_self, List.count_cons_of_ne hne]
  constructor
  · rintro ⟨p, hp, h⟩
    by_cases hd : d = 0
    · exact Or.inl hd
    · exact Or.inr ⟨p, hp, by omega⟩
  · rintro (hd | ⟨p, hp, h⟩)
    · exact ⟨[], List.nil_prefix, by simp [hd]⟩
    · exact ⟨p, hp, by omega⟩

theorem popToParen_count (operators : List String) :
    ∀ (output : List String),
      (operators.count "(" = 0 → (popToParen output operators).2 = []) ∧
      (0 < operators.count "(" → ∃ rest, (popToParen output operators).2 = "(" :: rest ∧
        rest.count "(" + 1 = operators.count "(") := by
  induction operators with
  | nil => intro output; simp [popToParen]
  | cons top rest ih =>
    intro output
    by_cases ht : top = "("
    · subst ht
      simp [popToParen]
    · rw [popToParen, if_pos ht, List.count_cons_of_ne (Ne.symm ht)]
      exact ih _

theorem popHigher_count {token : String} (htok : isOperator token = true)
    (operators : List String) :
    ∀ (output : List String),
      (popHigher token output operators).2.count "(" = operators.count "(" := by
  induction operators with
  | nil => intro output; simp [popHigher]
  | cons top rest ih =>
    intro output
    rw [popHigher]
    split
    · rename_i hge
      have ht : top ≠ "(" := by
        intro h
        subst h
        rcases precedence_operator htok with h' | h' <;> rw [h'] at hge <;>
          exact absurd hge (by decide)
      rw [ih, List.count_cons_of_ne (Ne.symm ht)]
    · rfl

theorem drain_count (operators : List String) :
    ∀ (output : List String),
      (operators.count "(" = 0 → drain output operators = .ok (output ++ operators)) ∧
      (0 < operators.count "(" → drain output operators = .error errParens) := by
  induction operators with
  | nil => intro output; simp [drain]
  | cons top rest ih =>
    intro output
    by_cases ht : top = "("
    · subst ht
      simp [drain]
    · rw [drain, if_neg ht, List.count_cons_of_ne (Ne.symm ht)]
      have := ih (output ++ [top])
      simpa using this

theorem number_ne_paren (fl : FloatOps) {t : String} (h : isNumber fl t = true) :
    t ≠ "(" ∧ t ≠ ")" := by
  constructor
  · intro h'
    subst h'
    rw [isNumber_symbol fl (t := "(") (by simp)] at h
    exact absurd h (by decide)
  · intro h'
    subst h'
    rw [isNumber_symbol fl (t := ")") (by simp)] at h
    exact absurd h (by decide)

/-- The token loop on recognised tokens: it stops with the mismatched-parentheses
error exactly when a prefix closes more parentheses than are open; otherwise it
ends with as many `(` on the operator stack as are still open. -/
theorem convertLoop_balance (fl : FloatOps) (ts : List String) :
    ∀ (output operators : List String), (∀ t ∈ ts, isToken fl t = true) →
      (Overclosed (operators.count "(") ts →
        convertLoop fl ts (output, operators) = .error errParens) ∧
      (¬ Overclosed (operators.count "(") ts →
        ∃ output' operators', convertLoop fl ts (output, operators) = .ok (output', operators') ∧
          operators'.count "(" + ts.count ")" = operators.count "(" + ts.count "(") := by
  induction ts with
  | nil =>
    intro output operators _
    exact ⟨fun h => absurd h (overclosed_nil _), fun _ => ⟨output, operators, rfl, by simp⟩⟩
  | cons t ts ih =>
    intro output operators hts
    have hts' := fun u hu => hts u (List.mem_cons_of_mem _ hu)
    have ht := hts t (List.mem_cons_self _ _)
    simp only [isToken, Bool.or_eq_true, beq_iff_eq] at ht
    rcases ht with ((hnum | hop) | hopen) | hclose
    · obtain ⟨h1, h2⟩ := number_ne_paren fl hnum
      have hih := ih (output ++ [t]) operators hts'
      rw [overclosed_cons_other _ h1 h2, convertLoop, convertStep_number fl hnum,
        List.count_cons_of_ne (Ne.symm h1), List.count_cons_of_ne (Ne.symm h2)]
      exact hih
    · have h1 := operator_ne_open hop
      have h2 := operator_ne_close hop
      have hih := ih (popHigher t output operators).1 (t :: (popHigher t output operators).2) hts'
      rw [List.count_cons_of_ne (Ne.symm h1), popHigher_count hop] at hih
      rw [overclosed_cons_other _ h1 h2, convertLoop, convertStep_operator fl hop,
        List.count_cons_of_ne (Ne.symm h1), List.count_cons_of_ne (Ne.symm h2)]
      exact hih
    · subst hopen
      have hne : (")" : String) ≠ "(" := by decide
      have hih := ih output ("(" :: operators) hts'
      rw [List.count_cons_self] at hih
      rw [overclosed_cons_open, convertLoop, convertStep_open, List.count_cons_self,
        List.count_cons_of_ne hne]
      refine ⟨hih.1, fun h => ?_⟩
      obtain ⟨o', s', hrun, hcount⟩ := hih.2 h
      exact ⟨o', s', hrun, by omega⟩
    · subst hclose
      have hne : ("(" : String) ≠ ")" := by decide
      obtain ⟨hzero, hpos⟩ := popToParen_count operators output
      rw [overclosed_cons_close, convertLoop, convertStep_close, List.count_cons_self,
        List.count_cons_of_ne hne]
      by_cases hd : operators.count "(" = 0
      · have hpop := hzero hd
        constructor
        · intro _
          generalize popToParen output operators = r at hpop
          obtain ⟨r1, r2⟩ := r
          simp only at hpop
          subst hpop
          rfl
        · intro h
          exact absurd (Or.inl hd) h
      · obtain ⟨rest, hpop, hcount⟩ := hpos (Nat.pos_of_ne_zero hd)
        generalize popToParen output operators = r at hpop
        obtain ⟨r1, r2⟩ := r
        simp only at hpop
        subst hpop
        have hih := ih r1 rest hts'
        have hrest : rest.count "(" = operators.count "(" - 1 := by omega
        rw [hrest] at hih
        constructor
        · rintro (h | h)
          · exact absurd h hd
          · exact hih.1 h
        · intro h
          obtain ⟨o', s', hrun, hc⟩ := hih.2 (fun h' => h (Or.inr h'))
          exact ⟨o', s', hrun, by omega⟩

/-- C5.  For every token sequence in which each token is numeric, an operator or
a parenthesis, `infixToPostfix` fails with the mismatched-parentheses error if and
only if the parentheses are unbalanced (some prefix contains more `)` than `(`
tokens, or the total numbers of `(` and `)` differ); when they are balanced it
succeeds. -/
theorem infixToPostfix_mismatched_iff (fl : FloatOps) (ts : List String)
    (hts : ∀ t ∈ ts, isToken fl t = true) :
    (infixToPostfix fl ts = .error errParens ↔ Unbalanced ts) ∧
      (¬ Unbalanced ts → ∃ output, infixToPostfix fl ts = .ok output) := by
  obtain ⟨hover, hfine⟩ := convertLoop_balance fl ts [] [] hts
  have hzero : Overclosed (([] : List String).count "(") ts ↔
      ∃ p, p <+: ts ∧ p.count "(" < p.count ")" := by
    simp [Overclosed]
  rw [hzero] at hover hfine
  by_cases hpre : ∃ p, p <+: ts ∧ p.count "(" < p.count ")"
  · have hrun := hover hpre
    have hfail : infixToPostfix fl ts = .error errParens := by
      simp [infixToPostfix, hrun]
    exact ⟨⟨fun _ => Or.inl hpre, fun _ => hfail⟩, fun h => absurd (Or.inl hpre) h⟩
  · obtain ⟨output, operators, hrun, hcount⟩ := hfine hpre
    simp only [List.count_nil, Nat.zero_add] at hcount
    obtain ⟨hdone, hleft⟩ := drain_count operators output
    by_cases hd : operators.count "(" = 0
    · have hok : infixToPostfix fl ts = .ok (output ++ operators) := by
        simp [infixToPostfix, hrun, hdone hd]
      have hbal : ¬ Unbalanced ts := by
        rintro (h | h)
        · exact hpre h
        · exact h (by omega)
      refine ⟨⟨fun h => ?_, fun h => absurd h hbal⟩, fun _ => ⟨_, hok⟩⟩
      rw [hok] at h
      cases h
    · have hfail : infixToPostfix fl ts = .error errParens := by
        simp [infixToPostfix, hrun, hleft (Nat.pos_of_ne_zero hd)]
      have hunb : Unbalanced ts := Or.inr (by omega)
      exact ⟨⟨fun _ => hunb, fun _ => hfail⟩, fun h => absurd hunb h⟩

/-- C5 at the tokens of `(1+2`: the parenthesis is never closed. -/
theorem infixToPostfix_mismatched_iff_witness :
    infixToPostfix decimal ["(", "1", "+", "2"] = .error errParens :=
  (infixToPostfix_mismatched_iff decimal ["(", "1", "+", "2"] (by decide)).1.mpr
    (Or.inr (by decide))

/-! ## C9: unrecognised tokens -/

theorem convertStep_unrecognised (fl : FloatOps) {t : String} (h : isToken fl t = false)
    (st : List String × List String) : convertStep fl st t = .error errInvalid := by
  simp only [isToken, Bool.or_eq_false_iff, beq_eq_false_iff_ne, ne_eq] at h
  obtain ⟨⟨⟨h1, h2⟩, h3⟩, h4⟩ := h
  simp [convertStep, h1, h2, h3, h4]

theorem convertLoop_unrecognised (fl : FloatOps) (ts : List String) :
    ∀ (st : List String × List String), (∃ t ∈ ts, isToken fl t = false) →
      ∃ e, convertLoop fl ts st = .error e := by
  induction ts with
  | nil => intro st h; simp at h
  | cons t ts ih =>
    intro st h
    rw [convertLoop]
    cases hstep : convertStep fl st t with
    | error e => exact ⟨e, rfl⟩
    | ok st' =>
      obtain ⟨u, hu, hbad⟩ := h
      rcases List.mem_cons.mp hu with h' | h'
      · subst h'
        rw [convertStep_unrecognised fl hbad] at hstep
        cases hstep
      · exact ih st' ⟨u, h', hbad⟩

theorem literal_not_symbol {s : String} (hs : isLiteral s = true) :
    s ∉ ["+", "-", "*", "/", "(", ")"] := by
  intro h
  simp only [List.mem_cons, List.mem_singleton, List.not_mem_nil, or_false] at h
  rcases h with h | h | h | h | h | h <;> subst h <;> exact absurd hs (by decide)

theorem tokenize_literal {s : String} (hs : isLiteral s = true) : tokenize s = [s] := by
  have := tokenizeFrom_literal hs [] (by simp) []
  rw [List.append_nil] at this
  simp [tokenize_eq_from, this, tokenizeFrom_nil, flush_nil]

theorem Calc_malformed_literal (fl : FloatOps) (s : String) (hs : isLiteral s = true)
    (hn : isNumber fl s = false) : Calc fl s = .error errInvalid := by
  have hsym := literal_not_symbol hs
  simp only [List.mem_cons, List.mem_singleton, List.not_mem_nil, or_false, not_or] at hsym
  obtain ⟨h1, h2, h3, h4, h5, h6⟩ := hsym
  have hbad : isToken fl s = false := by
    simp [isToken, isOperator, hn, h1, h2, h3, h4, h5, h6]
  simp [Calc, tokenize_literal hs, infixToPostfix, convertLoop, convertStep_unrecognised fl hbad]

/-- C9.  For every token sequence containing a token that is neither numeric, an
operator, nor a parenthesis, `infixToPostfix` returns an error and no output; the
error is the invalid-input error whenever every `)` that precedes the first such
token is matched by an earlier `(`.  Consequently `Calc` of a literal that is not
numeric, such as `1.2.3`, fails with the invalid-input error. -/
theorem infixToPostfix_unrecognised (fl : FloatOps) :
    (∀ (ts : List String), (∃ t ∈ ts, isToken fl t = false) →
        ∃ e, infixToPostfix fl ts = .error e) ∧
      (∀ (pre : List String) (bad : String) (post : List String),
        (∀ t ∈ pre, isToken fl t = true) → isToken fl bad = false →
        (∀ p, p <+: pre → p.count ")" ≤ p.count "(") →
        infixToPostfix fl (pre ++ bad :: post) = .error errInvalid) ∧
      (∀ (s : String), isLiteral s = true → isNumber fl s = false →
        Calc fl s = .error errInvalid) := by
  refine ⟨?_, ?_, fun s hs hn => Calc_malformed_literal fl s hs hn⟩
  · intro ts h
    obtain ⟨e, he⟩ := convertLoop_unrecognised fl ts ([], []) h
    exact ⟨e, by simp [infixToPostfix, he]⟩
  · intro pre bad post hpre hbad hmatched
    have hnot : ¬ Overclosed (([] : List String).count "(") pre := by
      rintro ⟨p, hp, h⟩
      have := hmatched p hp
      simp at h
      omega
    obtain ⟨output, operators, hrun, _⟩ := (convertLoop_balance fl pre [] [] hpre).2 hnot
    simp [infixToPostfix, convertLoop_append, hrun, convertLoop,
      convertStep_unrecognised fl hbad]

/-- C9 at the tokens `(`, `x`, `)` and at the expression `1.2.3`. -/
theorem infixToPostfix_unrecognised_witness :
    infixToPostfix decimal ["(", "x", ")"] = .error errInvalid ∧
      Calc decimal "1.2.3" = .error errInvalid :=
  ⟨(infixToPostfix_unrecognised decimal).2.1 ["("] "x" [")"] (by decide) (by decide)
      (by
        intro p hp
        rcases List.prefix_cons_iff.mp hp with h | ⟨q, hq, hqs⟩
        · subst h; decide
        · have : q = [] := List.prefix_nil.mp hqs
          subst this; subst hq; decide),
    (infixToPostfix_unrecognised decimal).2.2 "1.2.3" (by decide) (by decide)⟩

/-! ## C6: the error kinds of `Calc` -/

theorem stringsContains_self (s : String) : stringsContains s s = true := by
  simp [stringsContains]

theorem stringsContains_invalidToken (token : String) :
    stringsContains (errInvalidToken token) errInvalid = true := by
  simp only [stringsContains, decide_eq_true_eq, errInvalidToken]
  have h : ("Некорректный ввод: " : String) = errInvalid ++ ": " := by decide
  rw [h, String.data_append, String.data_append, List.append_assoc]
  exact List.infix_append' [] errInvalid.data _

theorem convertStep_error (fl : FloatOps) (st : List String × List String) (t : String)
    (e : String) (h : convertStep fl st t = .error e) : e = errParens ∨ e = errInvalid := by
  unfold convertStep at h
  split at h
  · cases h
  · split at h
    · cases h
    · split at h
      · split at h
        · cases h; exact Or.inl rfl
        · cases h
      · split at h
        · cases h
        · cases h; exact Or.inr rfl

theorem convertLoop_error (fl : FloatOps) (ts : List String) :
    ∀ (st : List String × List String) (e : String), convertLoop fl ts st = .error e →
      e = errParens ∨ e = errInvalid := by
  induction ts with
  | nil => intro st e h; cases h
  | cons t ts ih =>
    intro st e h
    rw [convertLoop] at h
    cases hstep : convertStep fl st t with
    | error e' =>
      rw [hstep] at h
      cases h
      exact convertStep_error fl st t _ hstep
    | ok st' =>
      rw [hstep] at h
      exact ih st' e h

theorem drain_error (operators : List String) :
    ∀ (output : List String) (e : String), drain output operators = .error e → e = errParens := by
  induction operators with
  | nil => intro output e h; cases h
  | cons top rest ih =>
    intro output e h
    rw [drain] at h
    split at h
    · cases h; rfl
    · exact ih _ e h

theorem infixToPostfix_error (fl : FloatOps) (ts : List String) (e : String)
    (h : infixToPostfix fl ts = .error e) : e = errParens ∨ e = errInvalid := by
  unfold infixToPostfix at h
  cases hrun : convertLoop fl ts ([], []) with
  | error e' =>
    rw [hrun] at h
    cases h
    exact convertLoop_error fl ts _ _ hrun
  | ok st =>
    rw [hrun] at h
    exact Or.inl (drain_error _ _ _ h)

/-- The default branch of the `switch` is never taken when the token is an operator. -/
theorem applyOperator_known (fl : FloatOps) {token : String} (h : isOperator token = true)
    (a b : fl.F) :
    applyOperator fl token a b = .ok (arith fl token a b) ∨
      applyOperator fl token a b = .error errDivZero := by
  rw [applyOperator_operator fl h]
  by_cases hc : (token != "/" || !fl.isZero b) = true
  · exact Or.inl (if_pos hc)
  · exact Or.inr (if_neg hc)

theorem evalStep_error (fl : FloatOps) (stack : List fl.F) (t : String) (e : String)
    (h : evalStep fl stack t = .error e) :
    e = errInvalid ∨ e = errDivZero ∨ e = errInvalidToken t := by
  unfold evalStep at h
  split at h
  · cases h
  · split at h
    · rename_i hop
      split at h
      · rename_i b a rest
        rcases applyOperator_known fl hop a b with h' | h' <;> rw [h'] at h
        · cases h
        · cases h; exact Or.inr (Or.inl rfl)
      · cases h; exact Or.inl rfl
    · cases h; exact Or.inr (Or.inr rfl)

theorem evalLoop_error (fl : FloatOps) (ts : List String) :
    ∀ (stack : List fl.F) (e : String), evalLoop fl ts stack = .error e →
      e = errInvalid ∨ e = errDivZero ∨ ∃ t, e = errInvalidToken t := by
  induction ts with
  | nil => intro stack e h; cases h
  | cons t ts ih =>
    intro stack e h
    rw [evalLoop] at h
    cases hstep : evalStep fl stack t with
    | error e' =>
      rw [hstep] at h
      cases h
      rcases evalStep_error fl stack t _ hstep with h' | h' | h'
      · exact Or.inl h'
      · exact Or.inr (Or.inl h')
      · exact Or.inr (Or.inr ⟨t, h'⟩)
    | ok stack' =>
      rw [hstep] at h
      exact ih stack' e h

theorem evaluatePostfix_error (fl : FloatOps) (ts : List String) (e : String)
    (h : evaluatePostfix fl ts = .error e) :
    e = errInvalid ∨ e = errDivZero ∨ ∃ t, e = errInvalidToken t := by
  unfold evaluatePostfix at h
  split at h
  · rename_i e' hrun
    cases h
    exact evalLoop_error fl ts [] _ hrun
  · cases h
  · cases h; exact Or.inl rfl

theorem Calc_error (fl : FloatOps) (s : String) (e : String) (h : Calc fl s = .error e) :
    e = errInvalid ∨ e = errParens ∨ e = errDivZero ∨ ∃ t, e = errInvalidToken t := by
  unfold Calc at h
  cases hconv : infixToPostfix fl (tokenize s) with
  | error e' =>
    rw [hconv] at h
    cases h
    rcases infixToPostfix_error fl _ _ hconv with h' | h'
    · exact Or.inr (Or.inl h')
    · exact Or.inl h'
  | ok rpn =>
    rw [hconv] at h
    rcases evaluatePostfix_error fl rpn e h with h' | h' | h'
    · exact Or.inl h'
    · exact Or.inr (Or.inr (Or.inl h'))
    · exact Or.inr (Or.inr (Or.inr h'))

/-- C6.  Every failure of `Calc` belongs to one of the three evaluator error
kinds: if `Calc` returns an error, its message contains "Некорректный ввод",
"Недостающие скобки" or "Деление на ноль", so `calculateHandler` answers 422 and
never 500; and the unknown-operator branch of `evaluatePostfix` is unreachable,
the `switch` being entered only with one of the four operators. -/
theorem Calc_error_kinds (fl : FloatOps) :
    (∀ (s e : String), Calc fl s = .error e →
        (stringsContains e errInvalid = true ∨ stringsContains e errParens = true ∨
          stringsContains e errDivZero = true) ∧
        errorStatus e = 422 ∧ calculateStatus fl s = 422) ∧
      (∀ (s : String), calculateStatus fl s ≠ 500) ∧
      (∀ (token : String) (a b : fl.F), isOperator token = true →
        applyOperator fl token a b = .ok (arith fl token a b) ∨
          applyOperator fl token a b = .error errDivZero) := by
  have hkinds : ∀ (s e : String), Calc fl s = .error e →
      (stringsContains e errInvalid = true ∨ stringsContains e errParens = true ∨
        stringsContains e errDivZero = true) := by
    intro s e h
    rcases Calc_error fl s e h with h' | h' | h' | ⟨t, h'⟩ <;> subst h'
    · exact Or.inl (stringsContains_self _)
    · exact Or.inr (Or.inl (stringsContains_self _))
    · exact Or.inr (Or.inr (stringsContains_self _))
    · exact Or.inl (stringsContains_invalidToken t)
  have hstatus : ∀ (s e : String), Calc fl s = .error e → errorStatus e = 422 := by
    intro s e h
    have := hkinds s e h
    unfold errorStatus
    rw [if_pos (by simpa [Bool.or_eq_true, or_assoc] using this)]
  refine ⟨fun s e h => ⟨hkinds s e h, hstatus s e h, ?_⟩, fun s => ?_,
    fun token a b h => applyOperator_known fl h a b⟩
  · simp only [calculateStatus, h, hstatus s e h]
  · unfold calculateStatus
    cases hc : Calc fl s with
    | error e => simp [hstatus s e hc]
    | ok v => simp

/-- C6 at `1/0`: the division-by-zero error is classified 422. -/
theorem Calc_error_kinds_witness :
    Calc decimal "1/0" = .error errDivZero ∧ calculateStatus decimal "1/0" = 422 := by
  have hc : Calc decimal "1/0" = .error errDivZero := by with_unfolding_all rfl
  exact ⟨hc, ((Calc_error_kinds decimal).1 "1/0" errDivZero hc).2.2⟩

/-! ## C10: tokens are non-empty and hold no space -/

/-- C10 as amended.  For every input string, every token in the output of
`tokenize` is non-empty and contains no space character `' '`. -/
theorem tokenize_nonempty_spaceFree (s : String) (t : String) (ht : t ∈ tokenize s) :
    t ≠ "" ∧ ' ' ∉ t.data := by
  have h0 : SpaceFree (([], []) : List String × List Char) := by
    constructor <;> simp
  exact flush_spaceFree (tokenizeLoop_spaceFree s.data h0) t ht

/-- C10 as amended, at the second token of `1 + 2`. -/
theorem tokenize_nonempty_spaceFree_witness :
    ("+" : String) ≠ "" ∧ ' ' ∉ ("+" : String).data :=
  tokenize_nonempty_spaceFree "1 + 2" "+" (by decide)

/-- C10 as stated fails: a tab is not skipped, so the first token of `1\t+2`
contains a whitespace character. -/
theorem tokenize_keeps_tab :
    ¬ (∀ (s : String), ∀ t ∈ tokenize s,
        t ≠ "" ∧ ∀ c ∈ t.data, c ≠ ' ' ∧ c ≠ '\t' ∧ c ≠ '\n' ∧ c ≠ '\r') := by
  intro h
  have h1 := (h "1\t+2" "1\t" (by decide)).2 '\t' (by decide)
  exact h1.2.1 rfl

/-! ## A remark on signed literals -/

/-- A string `ParseFloat` accepts is not always a literal of the tokenizer: the
exponent sign of `1e+5` is split off as an operator, the piece `1e` is not
numeric, and `Calc` rejects the input. -/
theorem Calc_signed_exponent :
    isNumber decimal "1e+5" = true ∧ isLiteral "1e+5" = false ∧
      tokenize "1e+5" = ["1e", "+", "5"] ∧ Calc decimal "1e+5" = .error errInvalid := by
  refine ⟨by decide, by decide, by decide, ?_⟩
  with_unfolding_all rfl

/-! ## C13: inputs made of spaces only -/

theorem tokenizeLoop_spaces (chars : List Char) (h : ∀ c ∈ chars, c = ' ')
    (st : List String × List Char) : tokenizeLoop chars st = st := by
  induction chars with
  | nil => rfl
  | cons c cs ih =>
    have hc : c = ' ' := h c (List.mem_cons_self _ _)
    have hstep : tokenizeStep st c = st := by simp [tokenizeStep, hc]
    show tokenizeLoop cs (tokenizeStep st c) = st
    rw [hstep]
    exact ih (fun c' h' => h c' (List.mem_cons_of_mem _ h'))

/-- C13.  For every input string consisting only of space characters (the empty
string included), `tokenize` returns the empty token sequence, `infixToPostfix`
returns the empty postfix sequence, and `Calc` fails with the invalid-input error
because the value stack, left empty by the token loop, does not hold exactly one
value. -/
theorem Calc_spaces_only (fl : FloatOps) (s : String) (h : ∀ c ∈ s.data, c = ' ') :
    tokenize s = [] ∧ infixToPostfix fl (tokenize s) = .ok [] ∧
      evalLoop fl [] [] = .ok [] ∧ Calc fl s = .error errInvalid := by
  have htok : tokenize s = [] := by
    simp [tokenize, tokenizeLoop_spaces s.data h, flush]
  refine ⟨htok, ?_, rfl, ?_⟩
  · rw [htok]
    rfl
  · simp only [Calc, htok]
    rfl

/-- C13 at the string of three spaces. -/
theorem Calc_spaces_only_witness :
    tokenize "   " = [] ∧ Calc decimal "   " = .error errInvalid :=
  ⟨(Calc_spaces_only decimal "   " (by decide)).1,
    (Calc_spaces_only decimal "   " (by decide)).2.2.2⟩

/-! ## C17: spaces are invisible to the tokenizer -/

theorem tokenizeLoop_filter (chars : List Char) :
    ∀ (st : List String × List Char),
      tokenizeLoop (chars.filter (fun c => c != ' ')) st = tokenizeLoop chars st := by
  induction chars with
  | nil => intro st; rfl
  | cons c cs ih =>
    intro st
    by_cases hc : c = ' '
    · subst hc
      have hstep : tokenizeStep st ' ' = st := by simp [tokenizeStep]
      show tokenizeLoop (List.filter (fun c => c != ' ') (' ' :: cs)) st =
        tokenizeLoop cs (tokenizeStep st ' ')
      rw [hstep, List.filter_cons_of_neg (by simp)]
      exact ih st
    · show tokenizeLoop (List.filter (fun c => c != ' ') (c :: cs)) st =
        tokenizeLoop cs (tokenizeStep st c)
      rw [List.filter_cons_of_pos (by simpa using hc)]
      exact ih (tokenizeStep st c)

/-- C17.  Space characters are invisible to the tokenizer, even inside a literal:
for every string `s`, `tokenize s` is `tokenize` of `s` with every `' '` removed,
and therefore `Calc s` is `Calc` of `s` with every `' '` removed. -/
theorem tokenize_removeSpaces (fl : FloatOps) (s : String) :
    tokenize s = tokenize (removeSpaces s) ∧ Calc fl s = Calc fl (removeSpaces s) := by
  have h : tokenize (removeSpaces s) = tokenize s := by
    simp only [tokenize, removeSpaces, tokenizeLoop_filter]
  exact ⟨h.symm, by simp only [Calc, h]⟩

/-! ## C18: the tokenizer loses nothing but spaces -/

theorem concatTokens_append (a b : List String) :
    (concatTokens (a ++ b)).data = (concatTokens a).data ++ (concatTokens b).data := by
  induction a with
  | nil => simp [concatTokens]
  | cons t a ih => simp [concatTokens, ih]

theorem concatTokens_flush (tokens : List String) (cur : List Char) :
    (concatTokens (flush tokens cur)).data = (concatTokens tokens).data ++ cur := by
  unfold flush
  split
  · simp [concatTokens_append, concatTokens]
  · rename_i h
    have : cur = [] := by
      cases cur with
      | nil => rfl
      | cons c cs => simp at h
    simp [this]

theorem concatTokens_step (st : List String × List Char) (c : Char) :
    (concatTokens (tokenizeStep st c).1).data ++ (tokenizeStep st c).2 =
      (concatTokens st.1).data ++ st.2 ++ [c].filter (fun c => c != ' ') := by
  unfold tokenizeStep
  split
  · rename_i hc
    simp [hc]
  · rename_i hc
    split
    · simp [concatTokens_append, concatTokens_flush, concatTokens, hc]
    · simp [hc]

theorem concatTokens_loop (chars : List Char) :
    ∀ (st : List String × List Char),
      (concatTokens (tokenizeLoop chars st).1).data ++ (tokenizeLoop chars st).2 =
        (concatTokens st.1).data ++ st.2 ++ chars.filter (fun c => c != ' ') := by
  induction chars with
  | nil => intro st; simp [tokenizeLoop]
  | cons c cs ih =>
    intro st
    show (concatTokens (tokenizeLoop cs (tokenizeStep st c)).1).data ++
        (tokenizeLoop cs (tokenizeStep st c)).2 = _
    rw [ih, concatTokens_step]
    have : List.filter (fun c => c != ' ') (c :: cs) =
        [c].filter (fun c => c != ' ') ++ cs.filter (fun c => c != ' ') := by
      rw [← List.filter_append]
      rfl
    rw [this]
    simp

/-- C18.  The tokenizer loses nothing but spaces: for every string `s`,
concatenating the tokens of `tokenize s` in order yields exactly `s` with every
`' '` character removed. -/
theorem concatTokens_tokenize (s : String) : concatTokens (tokenize s) = removeSpaces s := by
  apply String.ext
  have := concatTokens_loop s.data ([], [])
  simp only [tokenize, concatTokens_flush, this, removeSpaces, concatTokens]
  simp

/-- C17 at `1 2` and `1 2 + 3`: the two digits form one literal, and the sum is 15. -/
theorem tokenize_removeSpaces_witness :
    tokenize "1 2" = ["12"] ∧ Calc decimal "1 2 + 3" = .ok (15 : ℚ) :=
  ⟨(tokenize_removeSpaces decimal "1 2").1.trans (by decide),
    (tokenize_removeSpaces decimal "1 2 + 3").2.trans (by with_unfolding_all rfl)⟩

/-- C18 at `1 2 + 3`. -/
theorem concatTokens_tokenize_witness : concatTokens (tokenize "1 2 + 3") = "12+3" :=
  (concatTokens_tokenize "1 2 + 3").trans (by decide)

/-! ## C11: the shape of the tokens -/

theorem symbol_not_literal {t : String} (h : t ∈ ["+", "-", "*", "/", "(", ")"]) :
    ¬ (isLiteral t = true) := fun hl => literal_not_symbol hl h

theorem isLiteral_mk {cs : List Char} (hne : cs ≠ [])
    (hcs : ∀ c ∈ cs, c ≠ ' ' ∧ isSymbolChar c = false) : isLiteral (String.mk cs) = true := by
  simp only [isLiteral, Bool.and_eq_true, decide_eq_true_eq, List.all_eq_true, bne_iff_ne,
    ne_eq, Bool.not_eq_true', Bool.not_eq_eq_eq_not, Bool.not_true]
  exact ⟨hne, hcs⟩

theorem symbolChar_token {c : Char} (hc : isSymbolChar c = true) :
    String.mk [c] ∈ ["+", "-", "*", "/", "(", ")"] := by
  simp only [isSymbolChar, Bool.or_eq_true, beq_iff_eq] at hc
  rcases hc with ((((h | h) | h) | h) | h) | h <;> subst h <;> decide

theorem flush_tokenShape {st : List String × List Char} (h : TokenShape st) :
    (∀ t ∈ flush st.1 st.2, t ∈ ["+", "-", "*", "/", "(", ")"] ∨ isLiteral t = true) ∧
      List.Chain' (fun a b => ¬ (isLiteral a = true ∧ isLiteral b = true)) (flush st.1 st.2) := by
  obtain ⟨h1, h2, h3, h4⟩ := h
  unfold flush
  split
  · rename_i hlen
    have hlit := isLiteral_mk (List.length_pos.mp hlen) h4
    constructor
    · intro t ht
      rcases List.mem_append.mp ht with h' | h'
      · exact h1 t h'
      · have : t = String.mk st.2 := by simpa using h'
        subst this
        exact Or.inr hlit
    · apply List.Chain'.append h2 (List.chain'_singleton _)
      intro x hx y _ hxy
      exact symbol_not_literal (h3 x hx) hxy.1
  · exact ⟨h1, h2⟩

theorem tokenizeStep_tokenShape {st : List String × List Char} (h : TokenShape st) (c : Char) :
    TokenShape (tokenizeStep st c) := by
  unfold tokenizeStep
  split
  · exact h
  · rename_i hsp
    split
    · rename_i hc
      obtain ⟨hf1, hf2⟩ := flush_tokenShape h
      have hsym := symbolChar_token hc
      refine And.intro ?_ (And.intro ?_ (And.intro ?_ ?_))
      · intro t ht
        rcases List.mem_append.mp ht with h' | h'
        · exact hf1 t h'
        · have : t = String.mk [c] := by simpa using h'
          subst this
          exact Or.inl hsym
      · apply List.Chain'.append hf2 (List.chain'_singleton _)
        intro x _ y hy hxy
        have : y = String.mk [c] := by simpa using hy.symm
        subst this
        exact symbol_not_literal hsym hxy.2
      · intro x hx
        rw [List.getLast?_concat] at hx
        have : x = String.mk [c] := by simpa using hx.symm
        subst this
        exact hsym
      · simp
    · rename_i hc
      obtain ⟨h1, h2, h3, h4⟩ := h
      refine And.intro h1 (And.intro h2 (And.intro h3 ?_))
      intro c' hc'
      rcases List.mem_append.mp hc' with h' | h'
      · exact h4 c' h'
      · have : c' = c := by simpa using h'
        subst this
        exact ⟨hsp, by simpa using hc⟩

theorem tokenizeLoop_tokenShape (chars : List Char) {st : List String × List Char}
    (h : TokenShape st) : TokenShape (tokenizeLoop chars st) := by
  induction chars generalizing st with
  | nil => exact h
  | cons c cs ih => exact ih (tokenizeStep_tokenShape h c)

/-- C11.  For every input string, each token produced by `tokenize` is either
exactly one of the six single-character symbols `+ - * / ( )` or a non-empty
literal containing none of those six characters and no space; hence no literal
token carries a `+` or `-` sign, and no two literal tokens are adjacent in the
output. -/
theorem tokenize_shape (s : String) :
    (∀ t ∈ tokenize s, t ∈ ["+", "-", "*", "/", "(", ")"] ∨
        (t ≠ "" ∧ ∀ c ∈ t.data, c ≠ ' ' ∧ c ∉ ['+', '-', '*', '/', '(', ')'])) ∧
      (∀ t ∈ tokenize s, t ∉ ["+", "-", "*", "/", "(", ")"] → '+' ∉ t.data ∧ '-' ∉ t.data) ∧
      List.Chain' (fun a b => ¬ (a ∉ ["+", "-", "*", "/", "(", ")"] ∧
        b ∉ ["+", "-", "*", "/", "(", ")"])) (tokenize s) := by
  have h0 : TokenShape (([], []) : List String × List Char) := by
    refine And.intro ?_ (And.intro ?_ (And.intro ?_ ?_)) <;> simp
  obtain ⟨h1, h2⟩ := flush_tokenShape (tokenizeLoop_tokenShape s.data h0)
  have hlit : ∀ t, isLiteral t = true →
      t ≠ "" ∧ ∀ c ∈ t.data, c ≠ ' ' ∧ c ∉ ['+', '-', '*', '/', '(', ')'] := by
    intro t ht
    simp only [isLiteral, Bool.and_eq_true, decide_eq_true_eq, List.all_eq_true, bne_iff_ne,
      ne_eq, Bool.not_eq_true', Bool.not_eq_eq_eq_not, Bool.not_true] at ht
    refine ⟨fun h => ht.1 (by rw [h]), fun c hc => ⟨(ht.2 c hc).1, ?_⟩⟩
    have := (ht.2 c hc).2
    simp only [isSymbolChar, Bool.or_eq_false_iff, beq_eq_false_iff_ne, ne_eq] at this
    simp only [List.mem_cons, List.mem_singleton, List.not_mem_nil, or_false, not_or]
    tauto
  have hshape : ∀ t ∈ tokenize s, t ∈ ["+", "-", "*", "/", "(", ")"] ∨
      (t ≠ "" ∧ ∀ c ∈ t.data, c ≠ ' ' ∧ c ∉ ['+', '-', '*', '/', '(', ')']) := by
    intro t ht
    rcases h1 t ht with h | h
    · exact Or.inl h
    · exact Or.inr (hlit t h)
  refine ⟨hshape, ?_, ?_⟩
  · intro t ht hns
    rcases hshape t ht with h | h
    · exact absurd h hns
    · exact ⟨fun hc => (h.2 '+' hc).2 (by simp), fun hc => (h.2 '-' hc).2 (by simp)⟩
  · have hmem : ∀ t ∈ tokenize s, t ∉ ["+", "-", "*", "/", "(", ")"] → isLiteral t = true := by
      intro t ht hns
      rcases h1 t ht with h | h
      · exact absurd h hns
      · exact h
    have hchain : List.Chain' (fun a b => ¬ (isLiteral a = true ∧ isLiteral b = true))
        (tokenize s) := h2
    generalize tokenize s = l at hmem hchain
    induction l with
    | nil => exact List.chain'_nil
    | cons a l ih =>
      cases l with
      | nil => exact List.chain'_singleton _
      | cons b l =>
        rw [List.chain'_cons] at hchain ⊢
        refine ⟨fun hab => hchain.1 ⟨hmem a (by simp) hab.1, hmem b (by simp) hab.2⟩, ?_⟩
        exact ih (fun t ht => hmem t (List.mem_cons_of_mem _ ht)) hchain.2

/-- C11 at `12+3`: the first token is a literal without any symbol or space. -/
theorem tokenize_shape_witness :
    ("12" : String) ∈ ["+", "-", "*", "/", "(", ")"] ∨
      (("12" : String) ≠ "" ∧
        ∀ c ∈ ("12" : String).data, c ≠ ' ' ∧ c ∉ ['+', '-', '*', '/', '(', ')']) :=
  (tokenize_shape "12+3").1 "12" (by decide)

/-! ## C12 and C15: the evaluator and the shape of postfix sequences -/

theorem evaluatePostfix_ok_iff (fl : FloatOps) (p : List String) (v : fl.F) :
    evaluatePostfix fl p = .ok v ↔ evalLoop fl p [] = .ok [v] := by
  unfold evaluatePostfix
  constructor
  · intro h
    split at h
    · cases h
    · rename_i w hrun
      cases h
      exact hrun
    · cases h
  · intro h
    rw [h]

theorem not_operator_of_number (fl : FloatOps) {t : String} (h : isNumber fl t = true) :
    isOperator t = false := by
  cases hop : isOperator t with
  | false => rfl
  | true =>
    rw [isNumber_operator fl hop] at h
    cases h

theorem countP_number_cons (fl : FloatOps) {t : String} (hn : isNumber fl t = true)
    (q : List String) :
    (t :: q).countP (isNumber fl) = q.countP (isNumber fl) + 1 ∧
      (t :: q).countP isOperator = q.countP isOperator := by
  have hop := not_operator_of_number fl hn
  exact ⟨List.countP_cons_of_pos _ _ hn, List.countP_cons_of_neg _ _ (by simp [hop])⟩

theorem countP_operator_cons (fl : FloatOps) {t : String} (hn : ¬ (isNumber fl t = true))
    (hop : isOperator t = true) (q : List String) :
    (t :: q).countP (isNumber fl) = q.countP (isNumber fl) ∧
      (t :: q).countP isOperator = q.countP isOperator + 1 :=
  ⟨List.countP_cons_of_neg _ _ hn, List.countP_cons_of_pos _ _ hop⟩

theorem evalStep_ok_cases (fl : FloatOps) (stack stack' : List fl.F) (t : String)
    (h : evalStep fl stack t = .ok stack') :
    (isNumber fl t = true ∧ isOperator t = false ∧ stack'.length = stack.length + 1) ∨
      (isNumber fl t = false ∧ isOperator t = true ∧ stack'.length + 1 = stack.length) := by
  unfold evalStep at h
  split at h
  · rename_i hn
    cases h
    exact Or.inl ⟨hn, not_operator_of_number fl hn, rfl⟩
  · rename_i hn
    split at h
    · rename_i hop
      split at h
      · split at h
        · cases h
        · cases h
          exact Or.inr ⟨by simpa using hn, hop, by simp⟩
      · cases h
    · cases h

theorem evalLoop_ok_counts (fl : FloatOps) (p : List String) :
    ∀ (stack stack' : List fl.F), evalLoop fl p stack = .ok stack' →
      (∀ t ∈ p, isNumber fl t = true ∨ isOperator t = true) ∧
      stack'.length + p.countP isOperator = stack.length + p.countP (isNumber fl) ∧
      (∀ q, q <+: p → q ≠ [] →
        q.countP isOperator + 1 ≤ stack.length + q.countP (isNumber fl)) := by
  induction p with
  | nil =>
    intro stack stack' h
    cases h
    refine ⟨by simp, by simp, ?_⟩
    intro q hq hne
    exact absurd (List.prefix_nil.mp hq) hne
  | cons t p ih =>
    intro stack stack' h
    rw [evalLoop] at h
    cases hstep : evalStep fl stack t with
    | error e =>
      rw [hstep] at h
      cases h
    | ok stack1 =>
      rw [hstep] at h
      obtain ⟨ih1, ih2, ih3⟩ := ih stack1 stack' h
      have hcases := evalStep_ok_cases fl stack stack1 t hstep
      have hpre : ∀ q, q <+: t :: p → q ≠ [] → ∃ q', q = t :: q' ∧ q' <+: p := by
        intro q hq hne
        rcases List.prefix_cons_iff.mp hq with h0 | h1
        · exact absurd h0 hne
        · exact h1
      rcases hcases with ⟨hn, hop, hlen⟩ | ⟨hn, hop, hlen⟩
      · refine ⟨?_, ?_, ?_⟩
        · intro u hu
          rcases List.mem_cons.mp hu with h' | h'
          · subst h'
            exact Or.inl hn
          · exact ih1 u h'
        · rw [(countP_number_cons fl hn p).1, (countP_number_cons fl hn p).2]
          omega
        · intro q hq hne
          obtain ⟨q', hq', hpq⟩ := hpre q hq hne
          subst hq'
          rw [(countP_number_cons fl hn q').1, (countP_number_cons fl hn q').2]
          by_cases hq0 : q' = []
          · subst hq0
            simp
          · have := ih3 q' hpq hq0
            omega
      · refine ⟨?_, ?_, ?_⟩
        · intro u hu
          rcases List.mem_cons.mp hu with h' | h'
          · subst h'
            exact Or.inr hop
          · exact ih1 u h'
        · rw [(countP_operator_cons fl (by simp [hn]) hop p).1,
            (countP_operator_cons fl (by simp [hn]) hop p).2]
          omega
        · intro q hq hne
          obtain ⟨q', hq', hpq⟩ := hpre q hq hne
          subst hq'
          rw [(countP_operator_cons fl (by simp [hn]) hop q').1,
            (countP_operator_cons fl (by simp [hn]) hop q').2]
          have hlen1 : 1 ≤ stack1.length := by
            unfold evalStep at hstep
            rw [if_neg (by simp [hn]), if_pos hop] at hstep
            split at hstep
            · split at hstep
              · cases hstep
              · cases hstep
                simp
            · cases hstep
          by_cases hq0 : q' = []
          · subst hq0
            simp
            omega
          · have := ih3 q' hpq hq0
            omega

theorem evalLoop_of_counts (fl : FloatOps) (p : List String) :
    ∀ (stack : List fl.F), (∀ t ∈ p, isNumber fl t = true ∨ isOperator t = true) →
      (∀ q, q <+: p → q ≠ [] →
        q.countP isOperator + 1 ≤ stack.length + q.countP (isNumber fl)) →
      (∃ stack', evalLoop fl p stack = .ok stack' ∧
          stack'.length + p.countP isOperator = stack.length + p.countP (isNumber fl)) ∨
        evalLoop fl p stack = .error errDivZero := by
  induction p with
  | nil =>
    intro stack _ _
    exact Or.inl ⟨stack, rfl, by simp⟩
  | cons t p ih =>
    intro stack htok hpre
    have htok' := fun u hu => htok u (List.mem_cons_of_mem _ hu)
    have hone := hpre [t] (by simp) (by simp)
    by_cases hn : isNumber fl t = true
    · have hop := not_operator_of_number fl hn
      rw [evalLoop, evalStep_number fl hn]
      have hih := ih ((fl.parseFloat t).1 :: stack) htok' (by
        intro q hq hne
        have := hpre (t :: q) ((List.prefix_cons_inj t).mpr hq) (by simp)
        rw [(countP_number_cons fl hn q).1, (countP_number_cons fl hn q).2] at this
        simp only [List.length_cons]
        omega)
      rcases hih with ⟨stack', hrun, hlen⟩ | herr
      · refine Or.inl ⟨stack', hrun, ?_⟩
        rw [(countP_number_cons fl hn p).1, (countP_number_cons fl hn p).2]
        simp only [List.length_cons] at hlen
        omega
      · exact Or.inr herr
    · have hop : isOperator t = true := by
        rcases htok t (List.mem_cons_self _ _) with h | h
        · exact absurd h hn
        · exact h
      rw [(countP_operator_cons fl hn hop []).1, (countP_operator_cons fl hn hop []).2] at hone
      simp only [List.countP_nil] at hone
      match stack, hone, hpre with
      | b :: a :: rest, _, hpre =>
        rw [evalLoop, evalStep_operator fl hop]
        by_cases hc : (t != "/" || !fl.isZero b) = true
        · rw [if_pos hc]
          have hih := ih (arith fl t a b :: rest) htok' (by
            intro q hq hne
            have := hpre (t :: q) ((List.prefix_cons_inj t).mpr hq) (by simp)
            rw [(countP_operator_cons fl hn hop q).1, (countP_operator_cons fl hn hop q).2] at this
            simp only [List.length_cons] at this ⊢
            omega)
          rcases hih with ⟨stack', hrun, hlen⟩ | herr
          · refine Or.inl ⟨stack', hrun, ?_⟩
            rw [(countP_operator_cons fl hn hop p).1, (countP_operator_cons fl hn hop p).2]
            simp only [List.length_cons] at hlen ⊢
            omega
          · exact Or.inr herr
        · rw [if_neg hc]
          exact Or.inr rfl
      | [_], h1, _ => simp at h1
      | [], h1, _ => simp at h1

/-- C12.  The evaluator returns a value only on a well-formed postfix sequence:
if `evaluatePostfix p` succeeds then every token of `p` is numeric or an operator,
every non-empty prefix of `p` contains strictly more numeric tokens than operator
tokens, and `p` contains exactly one more numeric token than operator tokens;
conversely, if `p` satisfies these conditions, `evaluatePostfix p` either returns
a value or fails with division by zero, never with invalid input. -/
theorem evaluatePostfix_shape (fl : FloatOps) (p : List String) :
    (∀ v, evaluatePostfix fl p = .ok v →
        (∀ t ∈ p, isNumber fl t = true ∨ isOperator t = true) ∧
        (∀ q, q <+: p → q ≠ [] → q.countP isOperator < q.countP (isNumber fl)) ∧
        p.countP (isNumber fl) = p.countP isOperator + 1) ∧
      ((∀ t ∈ p, isNumber fl t = true ∨ isOperator t = true) →
        (∀ q, q <+: p → q ≠ [] → q.countP isOperator < q.countP (isNumber fl)) →
        p.countP (isNumber fl) = p.countP isOperator + 1 →
        (∃ v, evaluatePostfix fl p = .ok v) ∨ evaluatePostfix fl p = .error errDivZero) := by
  constructor
  · intro v hv
    rw [evaluatePostfix_ok_iff] at hv
    obtain ⟨h1, h2, h3⟩ := evalLoop_ok_counts fl p [] [v] hv
    refine ⟨h1, ?_, ?_⟩
    · intro q hq hne
      have := h3 q hq hne
      simp only [List.length_nil] at this
      omega
    · simp only [List.length_nil, List.length_singleton] at h2
      omega
  · intro h1 h2 h3
    rcases evalLoop_of_counts fl p [] h1 (by
        intro q hq hne
        have := h2 q hq hne
        simp only [List.length_nil]
        omega) with ⟨stack', hrun, hlen⟩ | herr
    · simp only [List.length_nil] at hlen
      match stack', hlen, hrun with
      | [v], _, hrun => exact Or.inl ⟨v, (evaluatePostfix_ok_iff fl p v).mpr hrun⟩
      | [], hlen, _ => simp at hlen; omega
      | _ :: _ :: _, hlen, _ => simp at hlen; omega
    · exact Or.inr (by simp [evaluatePostfix, herr])

/-- C12 at `2 3 +` and at `1 0 /`: the first evaluates to 5, the second is
well-formed and fails with division by zero. -/
theorem evaluatePostfix_shape_witness :
    (["2", "3", "+"].countP (isNumber decimal) = ["2", "3", "+"].countP isOperator + 1) ∧
      ((∃ v, evaluatePostfix decimal ["1", "0", "/"] = .ok v) ∨
        evaluatePostfix decimal ["1", "0", "/"] = .error errDivZero) :=
  ⟨((evaluatePostfix_shape decimal ["2", "3", "+"]).1 (5 : ℚ)
      (by with_unfolding_all rfl)).2.2,
    (evaluatePostfix_shape decimal ["1", "0", "/"]).2 (by decide)
      (by
        intro q hq hne
        have hmem : q ∈ ["1", "0", "/"].inits := (List.mem_inits _ _).mpr hq
        simp only [List.inits, List.mem_cons, List.mem_singleton, List.map_cons, List.map_nil,
          List.not_mem_nil, or_false] at hmem
        rcases hmem with h | h | h | h
        · exact absurd h hne
        · subst h; decide
        · subst h; decide
        · subst h; decide)
      (by decide)⟩

theorem evalStep_frame (fl : FloatOps) (stack stack' base : List fl.F) (t : String)
    (h : evalStep fl stack t = .ok stack') :
    evalStep fl (stack ++ base) t = .ok (stack' ++ base) := by
  unfold evalStep at h ⊢
  split
  · rename_i hn
    rw [if_pos hn] at h
    cases h
    rfl
  · rename_i hn
    rw [if_neg hn] at h
    split
    · rename_i hop
      rw [if_pos hop] at h
      match stack, h with
      | b :: a :: rest, h =>
        simp only [List.cons_append]
        simp only at h
        cases happ : applyOperator fl t a b with
        | error e =>
          rw [happ] at h
          cases h
        | ok v =>
          rw [happ] at h
          cases h
          rfl
      | [_], h => cases h
      | [], h => cases h
    · rename_i hop
      rw [if_neg hop] at h
      cases h

theorem evalLoop_frame (fl : FloatOps) (p : List String) :
    ∀ (stack stack' base : List fl.F), evalLoop fl p stack = .ok stack' →
      evalLoop fl p (stack ++ base) = .ok (stack' ++ base) := by
  induction p with
  | nil =>
    intro stack stack' base h
    cases h
    rfl
  | cons t p ih =>
    intro stack stack' base h
    rw [evalLoop] at h ⊢
    cases hstep : evalStep fl stack t with
    | error e =>
      rw [hstep] at h
      cases h
    | ok stack1 =>
      rw [hstep] at h
      rw [evalStep_frame fl stack stack1 base t hstep]
      exact ih stack1 stack' base h

/-- C15.  Postfix evaluation is compositional and keeps operand order: for all
postfix sequences `p` and `q` with `evaluatePostfix p = x` and
`evaluatePostfix q = y` (both successful) and every operator `op`,
`evaluatePostfix (p ++ q ++ [op])` returns `x op y`, with `x` the left and `y` the
right operand, except that for `op = "/"` with `y` zero it fails with division by
zero.  In particular `evaluatePostfix [a, b, "-"]` is `a - b`, not `b - a`. -/
theorem evaluatePostfix_compositional (fl : FloatOps) :
    (∀ (p q : List String) (x y : fl.F) (op : String),
        evaluatePostfix fl p = .ok x → evaluatePostfix fl q = .ok y → isOperator op = true →
        evaluatePostfix fl (p ++ q ++ [op]) =
          if op = "/" ∧ fl.isZero y = true then .error errDivZero
          else .ok (arith fl op x y)) ∧
      (∀ (a b : String), isNumber fl a = true → isNumber fl b = true →
        evaluatePostfix fl [a, b, "-"] =
          .ok (fl.sub (fl.parseFloat a).1 (fl.parseFloat b).1)) := by
  constructor
  · intro p q x y op hp hq hop
    rw [evaluatePostfix_ok_iff] at hp hq
    have hq' := evalLoop_frame fl q [] [y] [x] hq
    simp only [List.nil_append, List.singleton_append] at hq'
    have hrun : evalLoop fl (p ++ q ++ [op]) [] =
        match evalStep fl [y, x] op with
        | .error e => .error e
        | .ok stack' => .ok stack' := by
      simp only [evalLoop_append, hp, hq', evalLoop]
    unfold evaluatePostfix
    rw [hrun, evalStep_operator fl hop]
    by_cases hz : op = "/" ∧ fl.isZero y = true
    · have hc : ¬ ((op != "/" || !fl.isZero y) = true) := by simp [hz.1, hz.2]
      rw [if_neg hc, if_pos hz]
    · have hc : (op != "/" || !fl.isZero y) = true := by
        by_cases h1 : op = "/"
        · have : fl.isZero y = false := by simpa [h1] using hz
          simp [this]
        · simp [h1]
      rw [if_pos hc, if_neg hz]
  · intro a b ha hb
    simp [evaluatePostfix, evalLoop, evalStep_number fl ha, evalStep_number fl hb,
      @evalStep_operator fl "-" (by decide), arith]

/-- C15 at `5 3 -`: the result is `5 - 3 = 2`. -/
theorem evaluatePostfix_compositional_witness :
    evaluatePostfix decimal ["5", "3", "-"] = .ok (2 : ℚ) := by
  with_unfolding_all
    exact (evaluatePostfix_compositional decimal).1 ["5"] ["3"] (5 : ℚ) (3 : ℚ) "-" rfl rfl rfl

/-! ## C14: shunting-yard on the token-level grammar -/

theorem tokenFormed_of_wellFormed (fl : FloatOps) (t : Tree) :
    ∀ (lvl : Nat), t.wellFormed fl lvl = true → t.tokenFormed fl lvl = true := by
  induction t with
  | num s =>
    intro lvl h
    simp only [Tree.wellFormed, isNumericLiteral, Bool.and_eq_true] at h
    simpa [Tree.tokenFormed] using h.2
  | bin op l r ihl ihr =>
    intro lvl h
    simp only [Tree.wellFormed, Bool.and_eq_true, decide_eq_true_eq] at h
    simp only [Tree.tokenFormed, Bool.and_eq_true, decide_eq_true_eq]
    exact ⟨⟨⟨h.1.1.1, h.1.1.2⟩, ihl _ h.1.2⟩, ihr _ h.2⟩
  | paren e ih =>
    intro lvl h
    simp only [Tree.wellFormed] at h
    simpa [Tree.tokenFormed] using ih 1 h

/-- Shunting-yard on the tokens of a token-level tree of level `lvl`, started
above a stack whose top binds weaker than `lvl`. -/
theorem convertLoop_tokenFormed (fl : FloatOps) (t : Tree) :
    ∀ (lvl : Nat), t.tokenFormed fl lvl = true → ∀ (output operators : List String),
      (∀ o ∈ operators.head?, precedence o < lvl) →
      ∃ output' pend, convertLoop fl t.tokens (output, operators) = .ok (output', pend ++ operators) ∧
        output' ++ pend = output ++ t.postorder ∧
        ∀ o ∈ pend, isOperator o = true ∧ lvl ≤ precedence o := by
  induction t with
  | num s =>
    intro lvl h output operators _
    simp only [Tree.tokenFormed] at h
    refine ⟨output ++ [s], [], ?_, by simp [Tree.postorder], by simp⟩
    simp [Tree.tokens, convertLoop, convertStep_number fl h]
  | bin op l r ihl ihr =>
    intro lvl h output operators hops
    simp only [Tree.tokenFormed, Bool.and_eq_true, decide_eq_true_eq] at h
    obtain ⟨⟨⟨hop, hlvl⟩, hl⟩, hr⟩ := h
    obtain ⟨out1, pend1, hrun1, hout1, hpend1⟩ :=
      ihl _ hl output operators (fun o ho => lt_of_lt_of_le (hops o ho) hlvl)
    have hpop : popHigher op out1 (pend1 ++ operators) = (out1 ++ pend1, operators) := by
      rw [popHigher_append op pend1 out1 operators (fun o ho => (hpend1 o ho).2)]
      exact popHigher_stop op _ operators (fun o ho => lt_of_lt_of_le (hops o ho) hlvl)
    obtain ⟨out2, pend2, hrun2, hout2, hpend2⟩ :=
      ihr _ hr (out1 ++ pend1) (op :: operators) (by simp)
    refine ⟨out2, pend2 ++ [op], ?_, ?_, ?_⟩
    · simp only [Tree.tokens, convertLoop_append, hrun1, convertLoop,
        convertStep_operator fl hop, hpop, hrun2]
      simp
    · rw [← List.append_assoc, hout2, hout1]
      simp [Tree.postorder]
    · intro o ho
      rcases List.mem_append.mp ho with h' | h'
      · exact ⟨(hpend2 o h').1, le_trans hlvl (le_trans (Nat.le_succ _) (hpend2 o h').2)⟩
      · have : o = op := by simpa using h'
        subst this
        exact ⟨hop, hlvl⟩
  | paren e ih =>
    intro lvl h output operators _
    simp only [Tree.tokenFormed] at h
    obtain ⟨out1, pend1, hrun1, hout1, hpend1⟩ :=
      ih 1 h output ("(" :: operators) (by simp; decide)
    refine ⟨out1 ++ pend1, [], ?_, by simp [Tree.postorder, hout1], by simp⟩
    have hpop := popToParen_append pend1 out1 operators
      (fun o ho => operator_ne_open (hpend1 o ho).1)
    rw [Tree.tokens, List.cons_append, convertLoop, convertStep_open]
    simp only [convertLoop_append, hrun1]
    simp only [convertLoop, convertStep_close, hpop, List.nil_append]

/-- C14.  Shunting-yard correctness, independent of arithmetic: for every token
sequence that is the token list of a well-formed infix expression (grammar
`expr := term (('+'|'-') term)*`, `term := factor (('*'|'/') factor)*`,
`factor := numeric token | '(' expr ')'`), `infixToPostfix` succeeds and equals
the post-order traversal (left subtree, right subtree, operator) of the
left-associative parse tree. -/
theorem infixToPostfix_postorder (fl : FloatOps) (t : Tree)
    (h : t.tokenFormed fl 1 = true) : infixToPostfix fl t.tokens = .ok t.postorder := by
  obtain ⟨out, pend, hrun, hout, hpend⟩ := convertLoop_tokenFormed fl t 1 h [] [] (by simp)
  simp only [infixToPostfix, hrun, List.append_nil]
  rw [drain_operators pend out (fun o ho => operator_ne_open (hpend o ho).1), hout]
  simp

/-- C14 at the tokens of `2*(3+4)-5`. -/
theorem infixToPostfix_postorder_witness :
    infixToPostfix decimal ["2", "*", "(", "3", "+", "4", ")", "-", "5"] =
      .ok ["2", "3", "4", "+", "*", "5", "-"] :=
  infixToPostfix_postorder decimal
    (.bin "-" (.bin "*" (.num "2") (.paren (.bin "+" (.num "3") (.num "4")))) (.num "5"))
    (by decide)

/-! ## C16: what the postfix output contains -/

theorem popToParen_split (operators : List String) :
    ∀ (output : List String), ∃ pend,
      operators = pend ++ (popToParen output operators).2 ∧
      (popToParen output operators).1 = output ++ pend ∧
      (∀ x ∈ pend, x ≠ "(") ∧
      (∀ x ∈ (popToParen output operators).2.head?, x = "(") := by
  induction operators with
  | nil => intro output; exact ⟨[], by simp [popToParen]⟩
  | cons top rest ih =>
    intro output
    by_cases ht : top = "("
    · subst ht
      exact ⟨[], by simp [popToParen]⟩
    · obtain ⟨pend, h1, h2, h3, h4⟩ := ih (output ++ [top])
      refine ⟨top :: pend, ?_, ?_, ?_, ?_⟩
      · rw [popToParen, if_pos ht, List.cons_append, ← h1]
      · rw [popToParen, if_pos ht, h2]
        simp
      · intro x hx
        rcases List.mem_cons.mp hx with h' | h'
        · subst h'
          exact ht
        · exact h3 x h'
      · rw [popToParen, if_pos ht]
        exact h4

theorem popHigher_split {token : String} (htok : isOperator token = true)
    (operators : List String) :
    ∀ (output : List String), ∃ pend,
      operators = pend ++ (popHigher token output operators).2 ∧
      (popHigher token output operators).1 = output ++ pend ∧
      (∀ x ∈ pend, x ≠ "(") := by
  induction operators with
  | nil => intro output; exact ⟨[], by simp [popHigher]⟩
  | cons top rest ih =>
    intro output
    by_cases hge : precedence top ≥ precedence token
    · have ht : top ≠ "(" := by
        intro h
        subst h
        rcases precedence_operator htok with h' | h' <;> rw [h'] at hge <;>
          exact absurd hge (by decide)
      obtain ⟨pend, h1, h2, h3⟩ := ih (output ++ [top])
      refine ⟨top :: pend, ?_, ?_, ?_⟩
      · rw [popHigher, if_pos hge, List.cons_append, ← h1]
      · rw [popHigher, if_pos hge, h2]
        simp
      · intro x hx
        rcases List.mem_cons.mp hx with h' | h'
        · subst h'
          exact ht
        · exact h3 x h'
    · exact ⟨[], by simp [popHigher, hge]⟩

/-- The four ways a step of the token loop succeeds. -/
theorem convertStep_ok_cases (fl : FloatOps) (output operators output' operators' : List String)
    (t : String) (h : convertStep fl (output, operators) t = .ok (output', operators')) :
    (isNumber fl t = true ∧ output' = output ++ [t] ∧ operators' = operators) ∨
      (isNumber fl t = false ∧ t = "(" ∧ output' = output ∧ operators' = "(" :: operators) ∨
      (isNumber fl t = false ∧ t = ")" ∧ ∃ pend, operators = pend ++ "(" :: operators' ∧
        output' = output ++ pend ∧ ∀ y ∈ pend, y ≠ "(") ∨
      (isNumber fl t = false ∧ isOperator t = true ∧ ∃ pend rest, operators = pend ++ rest ∧
        output' = output ++ pend ∧ operators' = t :: rest ∧ ∀ y ∈ pend, y ≠ "(") := by
  by_cases hn : isNumber fl t = true
  · rw [convertStep_number fl hn] at h
    cases h
    exact Or.inl ⟨hn, rfl, rfl⟩
  · have hn' : isNumber fl t = false := by simpa using hn
    by_cases ho : t = "("
    · subst ho
      rw [convertStep_open] at h
      cases h
      exact Or.inr (Or.inl ⟨hn', rfl, rfl, rfl⟩)
    · by_cases hc : t = ")"
      · subst hc
        rw [convertStep_close] at h
        obtain ⟨pend, h1, h2, h3, h4⟩ := popToParen_split operators output
        simp only at h h1 h2 h4
        generalize popToParen output operators = r at h h1 h2 h4
        obtain ⟨r1, r2⟩ := r
        simp only at h h1 h2 h4
        cases r2 with
        | nil => cases h
        | cons x r2 =>
          simp only [Except.ok.injEq, Prod.mk.injEq] at h
          obtain ⟨e1, e2⟩ := h
          subst e1; subst e2
          have hx : x = "(" := h4 x (by simp)
          subst hx
          exact Or.inr (Or.inr (Or.inl ⟨hn', rfl, pend, h1, h2, h3⟩))
      · by_cases hop : isOperator t = true
        · rw [convertStep_operator fl hop] at h
          obtain ⟨pend, h1, h2, h3⟩ := popHigher_split hop operators output
          simp only [Except.ok.injEq, Prod.mk.injEq] at h
          obtain ⟨e1, e2⟩ := h
          refine Or.inr (Or.inr (Or.inr ⟨hn', hop, pend, _, h1, ?_, e2.symm, h3⟩))
          rw [← e1, h2]
        · have hbad : isToken fl t = false := by
            simp [isToken, hn', ho, hc, hop]
          rw [convertStep_unrecognised fl hbad] at h
          cases h

theorem isRpnToken_number (fl : FloatOps) {t : String} (h : isNumber fl t = true) :
    isRpnToken fl t = true := by
  simp [isRpnToken, h]

theorem isRpnToken_operator (fl : FloatOps) {t : String} (h : isOperator t = true) :
    isRpnToken fl t = true := by
  simp [isRpnToken, h]

theorem isRpnToken_open (fl : FloatOps) : isRpnToken fl "(" = false := by
  simp [isRpnToken, isNumber_symbol fl (t := "(") (by simp)]
  decide

theorem isRpnToken_close (fl : FloatOps) : isRpnToken fl ")" = false := by
  simp [isRpnToken, isNumber_symbol fl (t := ")") (by simp)]
  decide

theorem filter_number_stack (fl : FloatOps) (operators : List String)
    (h : ∀ x ∈ operators, isOperator x = true ∨ x = "(") :
    operators.filter (isNumber fl) = [] := by
  rw [List.filter_eq_nil_iff]
  intro x hx
  rcases h x hx with h' | h'
  · simp [isNumber_operator fl h']
  · subst h'
    simp [isNumber_symbol fl (t := "(") (by simp)]

/-- One step of the token loop keeps the invariant, adds the token to the
contents of output and stack when it is numeric or an operator, and adds it to
the numeric tokens of the output when it is numeric. -/
theorem convertStep_contents (fl : FloatOps) (output operators output' operators' : List String)
    (t : String) (hinv : RpnState fl (output, operators))
    (h : convertStep fl (output, operators) t = .ok (output', operators')) :
    RpnState fl (output', operators') ∧
      List.Perm ((output' ++ operators').filter (isRpnToken fl))
        ((output ++ operators).filter (isRpnToken fl) ++ [t].filter (isRpnToken fl)) ∧
      output'.filter (isNumber fl) = output.filter (isNumber fl) ++ [t].filter (isNumber fl) := by
  obtain ⟨hout, hops⟩ := hinv
  simp only at hout hops
  have hpendInv : ∀ (pend rest : List String), operators = pend ++ rest →
      (∀ y ∈ pend, y ≠ "(") →
      (∀ y ∈ pend, isRpnToken fl y = true) ∧ (∀ y ∈ rest, isOperator y = true ∨ y = "(") ∧
        pend.filter (isNumber fl) = [] := by
    intro pend rest hsplit hne
    have hp : ∀ y ∈ pend, isOperator y = true := by
      intro y hy
      rcases hops y (by rw [hsplit]; exact List.mem_append_left _ hy) with h' | h'
      · exact h'
      · exact absurd h' (hne y hy)
    refine ⟨fun y hy => isRpnToken_operator fl (hp y hy),
      fun y hy => hops y (by rw [hsplit]; exact List.mem_append_right _ hy), ?_⟩
    exact filter_number_stack fl pend (fun y hy => Or.inl (hp y hy))
  rcases convertStep_ok_cases fl output operators output' operators' t h with
    ⟨hn, e1, e2⟩ | ⟨hn, ht, e1, e2⟩ | ⟨hn, ht, pend, hsplit, e1, hne⟩ |
    ⟨hn, hop, pend, rest, hsplit, e1, e2, hne⟩
  · subst e1; subst e2
    have hk := isRpnToken_number fl hn
    refine ⟨⟨?_, hops⟩, ?_, by simp [hn]⟩
    · intro y hy
      rcases List.mem_append.mp hy with h' | h'
      · exact hout y h'
      · have : y = t := by simpa using h'
        subst this
        exact hk
    · simp only [List.filter_append, List.append_assoc]
      exact List.Perm.append_left _ List.perm_append_comm
  · subst e1; subst e2; subst ht
    refine ⟨⟨hout, ?_⟩, ?_, by simp [hn]⟩
    · intro y hy
      rcases List.mem_cons.mp hy with h' | h'
      · exact Or.inr h'
      · exact hops y h'
    · simp [List.filter_append, isRpnToken_open fl]
  · subst e1; subst ht
    obtain ⟨hp1, hp2, hp3⟩ := hpendInv pend ("(" :: operators') hsplit hne
    refine ⟨⟨?_, fun y hy => hp2 y (List.mem_cons_of_mem _ hy)⟩, ?_, ?_⟩
    · intro y hy
      rcases List.mem_append.mp hy with h' | h'
      · exact hout y h'
      · exact hp1 y h'
    · rw [hsplit]
      simp [List.filter_append, isRpnToken_open fl, isRpnToken_close fl]
    · simp [List.filter_append, hp3, hn]
  · subst e1; subst e2
    obtain ⟨hp1, hp2, hp3⟩ := hpendInv pend rest hsplit hne
    have hk := isRpnToken_operator fl hop
    refine ⟨⟨?_, ?_⟩, ?_, ?_⟩
    · intro y hy
      rcases List.mem_append.mp hy with h' | h'
      · exact hout y h'
      · exact hp1 y h'
    · intro y hy
      rcases List.mem_cons.mp hy with h' | h'
      · subst h'
        exact Or.inl hop
      · exact hp2 y h'
    · rw [hsplit]
      simp only [List.filter_append, List.append_assoc, List.filter_cons_of_pos hk,
        List.filter_nil]
      refine List.Perm.append_left _ (List.Perm.append_left _ ?_)
      exact (@List.perm_append_comm _ [t] _).trans (by simp)
    · simp [List.filter_append, hp3, hn]

theorem convertLoop_contents (fl : FloatOps) (ts : List String) :
    ∀ (output operators output' operators' : List String),
      RpnState fl (output, operators) →
      convertLoop fl ts (output, operators) = .ok (output', operators') →
      RpnState fl (output', operators') ∧
        List.Perm ((output' ++ operators').filter (isRpnToken fl))
          ((output ++ operators).filter (isRpnToken fl) ++ ts.filter (isRpnToken fl)) ∧
        output'.filter (isNumber fl) = output.filter (isNumber fl) ++ ts.filter (isNumber fl) := by
  induction ts with
  | nil =>
    intro output operators output' operators' hinv h
    simp only [convertLoop, Except.ok.injEq, Prod.mk.injEq] at h
    obtain ⟨e1, e2⟩ := h
    subst e1; subst e2
    exact ⟨hinv, by simp, by simp⟩
  | cons t ts ih =>
    intro output operators output' operators' hinv h
    rw [convertLoop] at h
    cases hstep : convertStep fl (output, operators) t with
    | error e =>
      rw [hstep] at h
      cases h
    | ok st1 =>
      obtain ⟨out1, ops1⟩ := st1
      rw [hstep] at h
      obtain ⟨hinv1, hperm1, hnum1⟩ :=
        convertStep_contents fl output operators out1 ops1 t hinv hstep
      obtain ⟨hinv2, hperm2, hnum2⟩ := ih out1 ops1 output' operators' hinv1 h
      refine ⟨hinv2, ?_, ?_⟩
      · have hcons : (t :: ts).filter (isRpnToken fl) =
            [t].filter (isRpnToken fl) ++ ts.filter (isRpnToken fl) := by
          rw [← List.filter_append]
          rfl
        rw [hcons, ← List.append_assoc]
        exact hperm2.trans (List.Perm.append_right _ hperm1)
      · have hcons : (t :: ts).filter (isNumber fl) =
            [t].filter (isNumber fl) ++ ts.filter (isNumber fl) := by
          rw [← List.filter_append]
          rfl
        rw [hnum2, hnum1, hcons, List.append_assoc]

theorem drain_ok (operators : List String) :
    ∀ (output o : List String), drain output operators = .ok o →
      o = output ++ operators ∧ "(" ∉ operators := by
  induction operators with
  | nil =>
    intro output o h
    simp only [drain, Except.ok.injEq] at h
    exact ⟨by simp [h], by simp⟩
  | cons top rest ih =>
    intro output o h
    rw [drain] at h
    split at h
    · cases h
    · rename_i ht
      obtain ⟨h1, h2⟩ := ih _ o h
      refine ⟨by simp [h1], ?_⟩
      intro hmem
      rcases List.mem_cons.mp hmem with h' | h'
      · exact ht h'.symm
      · exact h2 h'

theorem convertLoop_ok_tokens (fl : FloatOps) (ts : List String)
    (st st' : List String × List String) (h : convertLoop fl ts st = .ok st') :
    ∀ t ∈ ts, isToken fl t = true := by
  intro t ht
  cases hbad : isToken fl t with
  | true => rfl
  | false =>
    obtain ⟨e, he⟩ := convertLoop_unrecognised fl ts st ⟨t, ht, hbad⟩
    rw [he] at h
    cases h

theorem length_filter_rpn (fl : FloatOps) (ts : List String)
    (h : ∀ t ∈ ts, isToken fl t = true) :
    (ts.filter (isRpnToken fl)).length + ts.count "(" + ts.count ")" = ts.length := by
  induction ts with
  | nil => simp
  | cons t ts ih =>
    have ih' := ih (fun u hu => h u (List.mem_cons_of_mem _ hu))
    have ht := h t (List.mem_cons_self _ _)
    simp only [isToken, Bool.or_eq_true, beq_iff_eq] at ht
    have hoc : ("(" : String) ≠ ")" := by decide
    rcases ht with ((hnum | hop) | hopen) | hclose
    · obtain ⟨h1, h2⟩ := number_ne_paren fl hnum
      rw [List.filter_cons_of_pos (isRpnToken_number fl hnum),
        List.count_cons_of_ne (Ne.symm h1), List.count_cons_of_ne (Ne.symm h2)]
      simp only [List.length_cons]
      omega
    · rw [List.filter_cons_of_pos (isRpnToken_operator fl hop),
        List.count_cons_of_ne (Ne.symm (operator_ne_open hop)),
        List.count_cons_of_ne (Ne.symm (operator_ne_close hop))]
      simp only [List.length_cons]
      omega
    · subst hopen
      rw [List.filter_cons_of_neg (by simp [isRpnToken_open fl]), List.count_cons_self,
        List.count_cons_of_ne hoc.symm]
      simp only [List.length_cons]
      omega
    · subst hclose
      rw [List.filter_cons_of_neg (by simp [isRpnToken_close fl]), List.count_cons_self,
        List.count_cons_of_ne hoc]
      simp only [List.length_cons]
      omega

/-- C16.  Whenever `infixToPostfix t` succeeds with output `o`: `o` contains no
`(` or `)` token, `o` is a permutation of the numeric and operator tokens of `t`,
and the numeric tokens occur in `o` in the same relative order as in `t`; hence
the length of `o` is the length of `t` minus the number of parenthesis tokens in
`t`. -/
theorem infixToPostfix_contents (fl : FloatOps) (ts o : List String)
    (h : infixToPostfix fl ts = .ok o) :
    "(" ∉ o ∧ ")" ∉ o ∧ List.Perm o (ts.filter (isRpnToken fl)) ∧
      o.filter (isNumber fl) = ts.filter (isNumber fl) ∧
      o.length + ts.count "(" + ts.count ")" = ts.length ∧
      o.length = ts.length - (ts.count "(" + ts.count ")") := by
  unfold infixToPostfix at h
  cases hrun : convertLoop fl ts ([], []) with
  | error e =>
    rw [hrun] at h
    cases h
  | ok st =>
    obtain ⟨out, ops⟩ := st
    rw [hrun] at h
    simp only at h
    have hinv0 : RpnState fl (([], []) : List String × List String) := by
      constructor <;> simp
    obtain ⟨⟨hout, hops⟩, hperm, hnum⟩ := convertLoop_contents fl ts [] [] out ops hinv0 hrun
    simp only at hout hops
    obtain ⟨ho, hnoparen⟩ := drain_ok ops out o h
    have hopsOp : ∀ x ∈ ops, isOperator x = true := by
      intro x hx
      rcases hops x hx with h' | h'
      · exact h'
      · subst h'
        exact absurd hx hnoparen
    have hall : ∀ x ∈ o, isRpnToken fl x = true := by
      intro x hx
      rw [ho] at hx
      rcases List.mem_append.mp hx with h' | h'
      · exact hout x h'
      · exact isRpnToken_operator fl (hopsOp x h')
    have hfilter : o.filter (isRpnToken fl) = o := List.filter_eq_self.mpr hall
    have hpermo : List.Perm o (ts.filter (isRpnToken fl)) := by
      have := hperm
      rw [← ho, hfilter] at this
      simpa using this
    have hlen := length_filter_rpn fl ts (convertLoop_ok_tokens fl ts _ _ hrun)
    rw [← hpermo.length_eq] at hlen
    refine ⟨?_, ?_, hpermo, ?_, hlen, by omega⟩
    · intro hmem
      have := hall "(" hmem
      rw [isRpnToken_open fl] at this
      cases this
    · intro hmem
      have := hall ")" hmem
      rw [isRpnToken_close fl] at this
      cases this
    · rw [ho, List.filter_append, hnum,
        filter_number_stack fl ops (fun x hx => Or.inl (hopsOp x hx))]
      simp

/-- C16 at the tokens of `(1+2)*3`. -/
theorem infixToPostfix_contents_witness :
    List.Perm ["1", "2", "+", "3", "*"]
      (["(", "1", "+", "2", ")", "*", "3"].filter (isRpnToken decimal)) :=
  (infixToPostfix_contents decimal ["(", "1", "+", "2", ")", "*", "3"] ["1", "2", "+", "3", "*"]
    (by rfl)).2.2.1

/-! ## C19: ill-formed expressions that are evaluated all the same -/

theorem alternates_tokens (fl : FloatOps) (t : Tree) :
    ∀ (lvl : Nat), t.tokenFormed fl lvl = true → ∀ (rest : List String),
      alternates fl true (t.tokens ++ rest) = alternates fl false rest := by
  induction t with
  | num s =>
    intro lvl h rest
    simp only [Tree.tokenFormed] at h
    simp [Tree.tokens, alternates, h]
  | bin op l r ihl ihr =>
    intro lvl h rest
    simp only [Tree.tokenFormed, Bool.and_eq_true, decide_eq_true_eq] at h
    obtain ⟨⟨⟨hop, _⟩, hl⟩, hr⟩ := h
    rw [Tree.tokens, List.append_assoc, ihl _ hl, List.cons_append]
    simp [alternates, hop, ihr _ hr]
  | paren e ih =>
    intro lvl h rest
    simp only [Tree.tokenFormed] at h
    have h1 : isNumber fl "(" = false := isNumber_symbol fl (by simp)
    have h2 : isOperator ")" = false := by decide
    rw [Tree.tokens]
    simp [alternates, h1, h2, ih _ h]

/-- In the tokens of a well-formed expression operands and operators alternate. -/
theorem alternates_of_wellFormed (fl : FloatOps) (t : Tree) (lvl : Nat)
    (h : t.wellFormed fl lvl = true) : alternates fl true (tokenize t.render) = true := by
  have := alternates_tokens fl t lvl (tokenFormed_of_wellFormed fl t lvl h) []
  rw [List.append_nil] at this
  rw [tokenize_render fl t lvl h, this]
  rfl

theorem not_wellFormed_of_alternates (fl : FloatOps) (s : String)
    (h : alternates fl true (tokenize s) = false) :
    ¬ ∃ t : Tree, t.wellFormed fl 1 = true ∧ t.render = s := by
  rintro ⟨t, hwf, hs⟩
  have := alternates_of_wellFormed fl t 1 hwf
  rw [hs, h] at this
  cases this

/-- C19.  The evaluator does not reject every ill-formed expression: `()2`,
`2(3)+` and `2+()3` are not well-formed infix expressions (their operands and
operators do not alternate), yet `Calc` returns a value for each: the value of
`2`, and twice `2 + 3`.  The converter never checks the alternation and discards
an empty pair of parentheses silently. -/
theorem Calc_accepts_illFormed (fl : FloatOps) (h2 : isNumber fl "2" = true)
    (h3 : isNumber fl "3" = true) :
    ((¬ ∃ t : Tree, t.wellFormed fl 1 = true ∧ t.render = "()2") ∧
        Calc fl "()2" = .ok (fl.parseFloat "2").1) ∧
      ((¬ ∃ t : Tree, t.wellFormed fl 1 = true ∧ t.render = "2(3)+") ∧
        Calc fl "2(3)+" = .ok (fl.add (fl.parseFloat "2").1 (fl.parseFloat "3").1)) ∧
      ((¬ ∃ t : Tree, t.wellFormed fl 1 = true ∧ t.render = "2+()3") ∧
        Calc fl "2+()3" = .ok (fl.add (fl.parseFloat "2").1 (fl.parseFloat "3").1)) ∧
      infixToPostfix fl ["(", ")"] = .ok [] := by
  have hopen : isNumber fl "(" = false := isNumber_symbol fl (by simp)
  have hclose : isNumber fl ")" = false := isNumber_symbol fl (by simp)
  have hplus : isOperator "+" = true := by decide
  have hpnum : isNumber fl "+" = false := isNumber_operator fl hplus
  have t1 : tokenize "()2" = ["(", ")", "2"] := by decide
  have t2 : tokenize "2(3)+" = ["2", "(", "3", ")", "+"] := by decide
  have t3 : tokenize "2+()3" = ["2", "+", "(", ")", "3"] := by decide
  have c1 : infixToPostfix fl ["(", ")", "2"] = .ok ["2"] := by
    simp [infixToPostfix, convertLoop, convertStep_open, convertStep_close, popToParen,
      convertStep_number fl h2, drain]
  have c2 : infixToPostfix fl ["2", "(", "3", ")", "+"] = .ok ["2", "3", "+"] := by
    simp [infixToPostfix, convertLoop, convertStep_open, convertStep_close, popToParen,
      convertStep_number fl h2, convertStep_number fl h3, convertStep_operator fl hplus,
      popHigher, drain]
  have c3 : infixToPostfix fl ["2", "+", "(", ")", "3"] = .ok ["2", "3", "+"] := by
    simp [infixToPostfix, convertLoop, convertStep_open, convertStep_close, popToParen,
      convertStep_number fl h2, convertStep_number fl h3, convertStep_operator fl hplus,
      popHigher, drain]
  have e1 : evaluatePostfix fl ["2"] = .ok (fl.parseFloat "2").1 := by
    simp [evaluatePostfix, evalLoop, evalStep_number fl h2]
  have e2 : evaluatePostfix fl ["2", "3", "+"] =
      .ok (fl.add (fl.parseFloat "2").1 (fl.parseFloat "3").1) := by
    simp [evaluatePostfix, evalLoop, evalStep_number fl h2, evalStep_number fl h3,
      evalStep_operator fl hplus, arith]
  refine ⟨⟨?_, ?_⟩, ⟨?_, ?_⟩, ⟨?_, ?_⟩, ?_⟩
  · apply not_wellFormed_of_alternates
    rw [t1]
    simp [alternates, hopen, hclose]
  · simp only [Calc, t1, c1, e1]
  · apply not_wellFormed_of_alternates
    rw [t2]
    simp [alternates, h2, isOperator]
  · simp only [Calc, t2, c2, e2]
  · apply not_wellFormed_of_alternates
    rw [t3]
    simp [alternates, h2, hplus, hopen, hclose]
  · simp only [Calc, t3, c3, e2]
  · simp [infixToPostfix, convertLoop, convertStep_open, convertStep_close, popToParen, drain]

/-- C19 evaluated: `()2` gives 2, `2(3)+` gives 5 and `2+()3` gives 5. -/
theorem Calc_accepts_illFormed_witness :
    Calc decimal "()2" = .ok (2 : ℚ) ∧ Calc decimal "2(3)+" = .ok (5 : ℚ) ∧
      Calc decimal "2+()3" = .ok (5 : ℚ) := by
  have h := Calc_accepts_illFormed decimal (by decide) (by decide)
  refine ⟨?_, ?_, ?_⟩
  · with_unfolding_all exact h.1.2
  · with_unfolding_all exact h.2.1.2
  · with_unfolding_all exact h.2.2.1.2

/-! ## C1 and C2 as stated: numeric literals with a sign inside -/

/-- C1 as stated fails.  With a numeric literal being any string `ParseFloat`
accepts, `1e+5` is a well-formed expression without any division, yet the
tokenizer splits it into `1e`, `+`, `5` and `Calc` returns the invalid-input
error instead of the value of the literal. -/
theorem Calc_wellFormed_signed_exponent :
    ¬ (∀ (t : Tree), t.tokenFormed decimal 1 = true → t.divisorsNonzero decimal = true →
        Calc decimal t.render = .ok (t.value decimal)) := by
  intro h
  have h1 := h (.num "1e+5") (by decide) rfl
  have hc : Calc decimal (Tree.num "1e+5").render = .error errInvalid := by
    with_unfolding_all rfl
  rw [hc] at h1
  cases h1

/-- C2 as stated fails.  With a numeric literal being any string `ParseFloat`
accepts, `2*1e-3` is a parenthesis-free chain of numeric literals; the reference
evaluator returns `2 * 0.001 = 1/500`, while `Calc` returns the invalid-input
error, which is neither a value nor the division-by-zero error. -/
theorem Calc_eq_reference_signed_exponent :
    ¬ (∀ (n0 : String) (rest : List (String × String)), isNumber decimal n0 = true →
        (∀ x ∈ rest, isOperator x.1 = true ∧ isNumber decimal x.2 = true) →
        Calc decimal (chainRender n0 rest) = reference decimal (decimal.parseFloat n0).1 rest) := by
  intro h
  have h1 := h "2" [("*", "1e-3")] (by decide) (by decide)
  have hc : Calc decimal (chainRender "2" [("*", "1e-3")]) = .error errInvalid := by
    with_unfolding_all rfl
  have hr : reference decimal (decimal.parseFloat "2").1 [("*", "1e-3")] =
      .ok ((1 : ℚ) / 500) := by
    with_unfolding_all rfl
  rw [hc, hr] at h1
  cases h1

end Calculator
